import Mathlib

/-
Verification development for the zsh history cleaner (clean_history.py).

The Python source is shallowly embedded: Python dicts and Counters are
insertion-ordered association lists, Python sets of line indices are
Finset Nat, the difflib SequenceMatcher ratio is embedded as an exact
rational (Ratcliff-Obershelp longest-matching-block decomposition, the
tie on equal-length blocks broken towards the earliest start in the
first string and then in the second, exactly as difflib picks blocks
for strings below the autojunk limit).
-/

namespace CleanHistory

/-! ### Association-list primitives (Python dict / Counter semantics) -/

/-- First-match lookup, the reading discipline of a Python dict. -/
def alookup {β : Type} (k : String) : List (String × β) → Option β
  | [] => none
  | (k1, v) :: t => if k1 = k then some v else alookup k t

/-- Keys of an association list, in iteration order. -/
def keysOf {β : Type} (m : List (String × β)) : List String := m.map Prod.fst

/-- Python `d[k] = v`: overwrite in place when the key exists, else append. -/
def dictInsert (k : Nat) (v : String) : List (Nat × String) → List (Nat × String)
  | [] => [(k, v)]
  | (k1, v1) :: t => if k1 = k then (k, v) :: t else (k1, v1) :: dictInsert k v t

/-- Python `d.update(src)`: insert the entries of `src` in order. -/
def dictUpdate (m src : List (Nat × String)) : List (Nat × String) :=
  src.foldl (fun acc kv => dictInsert kv.1 kv.2 acc) m

/-- Lookup in a Nat-keyed dict. -/
def nlookup (k : Nat) : List (Nat × String) → Option String
  | [] => none
  | (k1, v) :: t => if k1 = k then some v else nlookup k t

/-- Python `counter[k] += v`: add in place when the key exists, else append. -/
def counterAdd (k : String) (v : Nat) : List (String × Nat) → List (String × Nat)
  | [] => [(k, v)]
  | (k1, v1) :: t => if k1 = k then (k1, v1 + v) :: t else (k1, v1) :: counterAdd k v t

/-- Python `Counter.update(src)`: add each entry of `src` in order. -/
def counterMerge (m src : List (String × Nat)) : List (String × Nat) :=
  src.foldl (fun acc kv => counterAdd kv.1 kv.2 acc) m

/-- Python `defaultdict(list); d[k].append(i)`: extend in place, else append `[i]`. -/
def appendIdx (k : String) (i : Nat) : List (String × List Nat) → List (String × List Nat)
  | [] => [(k, [i])]
  | (k1, v) :: t => if k1 = k then (k1, v ++ [i]) :: t else (k1, v) :: appendIdx k i t

/-- Python `cmd_data.cmd_to_lines[cmd]` on a defaultdict: `[]` when absent. -/
def lookupList (m : List (String × List Nat)) (k : String) : List Nat :=
  (alookup k m).getD []

/-! ### Line parsing (`parse_history_line`)

The regex is `: (\d+):\d+;(.+)` applied with `re.match`: the line must
start with a colon and a space, then a nonempty digit run (group 1), a
colon, a nonempty digit run, a semicolon, and at least one character other
than a newline; `(.+)` then extends greedily to the end of the line or to
the first newline. Since a digit can never stand where the colon or the
semicolon is required, maximal munch on the digit runs is exactly the
regex with backtracking. The command is stripped of surrounding
whitespace as Python str.strip does. As with the whitespace class below,
the digit class `\d` is modelled on the ASCII range, where zsh timestamps
live. -/

/-- The whitespace class Python str.strip and str.split use, on the ASCII
range (space, tab, newline, carriage return, vertical tab, form feed). -/
def pySpace (c : Char) : Bool :=
  c = ' ' || c = '\t' || c = '\n' || c = '\r' || c = Char.ofNat 11 || c = Char.ofNat 12

/-- Python str.strip(): drop leading and trailing whitespace. -/
def pyStrip (cs : List Char) : List Char :=
  ((cs.dropWhile pySpace).reverse.dropWhile pySpace).reverse

/-- `parse_history_line` on the character list of the line. -/
def parseChars (cs : List Char) : Option (String × String) :=
  match cs with
  | ':' :: ' ' :: r0 =>
    let d1 := r0.takeWhile Char.isDigit
    let r1 := r0.dropWhile Char.isDigit
    if d1 = [] then none else
      match r1 with
      | ':' :: r2 =>
        let d2 := r2.takeWhile Char.isDigit
        let r3 := r2.dropWhile Char.isDigit
        if d2 = [] then none else
          match r3 with
          | ';' :: r4 =>
            let body := r4.takeWhile (fun c => c ≠ '\n')
            if body = [] then none
            else some (d1.asString, (pyStrip body).asString)
          | _ => none
      | _ => none
  | _ => none

/-- `parse_history_line`: timestamp and stripped command, or no record. -/
def parseHistoryLine (line : String) : Option (String × String) :=
  parseChars line.data

/-- `get_base_command`: first whitespace-delimited token, or the command
itself when it has no token (Python `cmd.split()[0] if cmd.split() else cmd`). -/
def get_base_command (cmd : String) : String :=
  let cs := cmd.data.dropWhile pySpace
  if cs = [] then cmd else (cs.takeWhile (fun c => !pySpace c)).asString

/-! ### Similarity (`difflib.SequenceMatcher(None, a, b).ratio()`)

Matched total: pick the longest block `a[i:i+k] = b[j:j+k]` (ties: least
`i`, then least `j`), recurse on what is left of it and on what is right
of it, and sum the block lengths; the ratio is `2*M/(len a + len b)` as
an exact rational (`1` when both strings are empty). The recursion is
driven by a fuel argument so that every value computes by kernel
reduction; `a.length + b.length` fuel always suffices. -/

/-- Length of the longest common prefix of two character lists. -/
def cpl : List Char → List Char → Nat
  | a :: as1, b :: bs1 => if a = b then cpl as1 bs1 + 1 else 0
  | _, _ => 0

/-- All start pairs `(i, j)`, in lexicographic order. -/
def candPairs (la lb : Nat) : List (Nat × Nat) :=
  (List.range la).flatMap (fun i => (List.range lb).map (fun j => (i, j)))

/-- One candidate considered: keep the block only when strictly longer. -/
def flmStep (a b : List Char) (best : Nat × Nat × Nat) (p : Nat × Nat) : Nat × Nat × Nat :=
  let k := cpl (a.drop p.1) (b.drop p.2)
  if best.2.2 < k then (p.1, p.2, k) else best

/-- `find_longest_match` over the whole strings: `(i, j, k)`. -/
def flm (a b : List Char) : Nat × Nat × Nat :=
  (candPairs a.length b.length).foldl (flmStep a b) (0, 0, 0)

/-- Total matched length, with explicit fuel. -/
def mtF : Nat → List Char → List Char → Nat
  | 0, _, _ => 0
  | fuel + 1, a, b =>
    let t := flm a b
    if t.2.2 = 0 then 0
    else
      mtF fuel (a.take t.1) (b.take t.2.1) + t.2.2 +
        mtF fuel (a.drop (t.1 + t.2.2)) (b.drop (t.2.1 + t.2.2))

/-- Total length matched by the block decomposition. -/
def matchTotal (a b : List Char) : Nat :=
  mtF (a.length + b.length) a b

/-- The ratio as an exact rational: `2*M / (len a + len b)`, and `1` when
both strings are empty (difflib `_calculate_ratio`). -/
def ratioQ (a b : List Char) : ℚ :=
  if a.length + b.length = 0 then 1
  else mkRat (2 * matchTotal a b) (a.length + b.length)

/-- `similarity(a, b)`. -/
def similarity (a b : String) : ℚ := ratioQ a.data b.data

/-! ### Settings and command data -/

/-- `CleaningSettings`. The rare threshold is a CLI integer, so an `Int`. -/
structure CleaningSettings where
  similarity_threshold : ℚ
  rare_threshold : Int
  remove_rare : Bool

/-- `CommandData`: counters and the command-to-line-indices map. -/
structure CommandData where
  failed_cmds : List (String × Nat)
  successful_cmds : List (String × Nat)
  cmd_to_lines : List (String × List Nat)

/-! ### Strategy 0 (`find_duplicate_indices`) -/

/-- One entry of `cmd_to_lines` processed: with more than one recorded
occurrence, every index other than the first-seen one is collected. A
command missing from `seen_commands` would raise in Python; the embedding
collects nothing for it (the pipeline never produces that case). -/
def dupStep (seen : List (String × Nat)) (acc : List Nat) (e : String × List Nat) :
    List Nat :=
  if 1 < e.2.length then
    match alookup e.1 seen with
    | some fst => acc ++ e.2.filter (fun i => decide (i ≠ fst))
    | none => acc
  else acc

/-- The duplicate indices as encountered, before they are put in the set. -/
def dupIndicesList (ctl : List (String × List Nat)) (seen : List (String × Nat)) :
    List Nat :=
  ctl.foldl (dupStep seen) []

/-- `find_duplicate_indices` (the returned Python set). -/
def findDuplicateIndices (ctl : List (String × List Nat)) (seen : List (String × Nat)) :
    Finset Nat :=
  (dupIndicesList ctl seen).toFinset

/-! ### Strategy 1 (`_remove_failed_similar_commands`) -/

/-- The reason strings. -/
def dupReason : String := "Duplicate"

def pfxReason (s : String) : String := "Failed prefix of '" ++ s ++ "'"

def simReason (s : String) : String := "Failed similar to '" ++ s ++ "'"

def rareReason (s : String) : String := "Rare variant of '" ++ s ++ "'"

/-- The prefix rule for one successful candidate: the successful command
strictly extends the failed one (Python `success_cmd.startswith(failed_cmd)`,
embedded as character-prefix on the data) and succeeded more often than the
failed one failed. -/
def pfxRule (fcmd : String) (fc : Nat) (scmd : String) (sc : Nat) : Bool :=
  fcmd.data.isPrefixOf scmd.data && decide (scmd ≠ fcmd) &&
    decide (fcmd.length < scmd.length) && decide (fc < sc)

/-- The similarity rule for one successful candidate: similarity in
`[threshold, 1)` and more successes than failures. -/
def simRule (t : ℚ) (fcmd : String) (fc : Nat) (scmd : String) (sc : Nat) : Bool :=
  decide (t ≤ similarity fcmd scmd) && decide (similarity fcmd scmd < 1) &&
    decide (fc < sc)

/-- A successful candidate on which the inner scan of Strategy 1 stops:
same base command, and the prefix rule or the similarity rule fires. -/
def s1qual (t : ℚ) (fcmd : String) (fc : Nat) (p : String × Nat) : Bool :=
  decide (get_base_command p.1 = get_base_command fcmd) &&
    (pfxRule fcmd fc p.1 p.2 || simRule t fcmd fc p.1 p.2)

/-- One failed command processed: scan the successful candidates in order,
stop at the first on which a rule fires, and mark every line index of the
failed command with that rule's reason. -/
def s1step (ctl : List (String × List Nat)) (succs : List (String × Nat)) (t : ℚ)
    (acc : Finset Nat × List (Nat × String)) (f : String × Nat) :
    Finset Nat × List (Nat × String) :=
  match succs.find? (s1qual t f.1 f.2) with
  | none => acc
  | some (s, sc) =>
    let idxs := lookupList ctl f.1
    let reason := if pfxRule f.1 f.2 s sc then pfxReason s else simReason s
    (acc.1 ∪ idxs.toFinset, dictUpdate acc.2 (idxs.map (fun i => (i, reason))))

/-- `_remove_failed_similar_commands`. -/
def removeFailedSimilar (cmdData : CommandData) (t : ℚ) :
    Finset Nat × List (Nat × String) :=
  cmdData.failed_cmds.foldl (s1step cmdData.cmd_to_lines cmdData.successful_cmds t) (∅, [])

/-! ### Strategy 2 (`_remove_rare_variants`) -/

/-- A common candidate on which the inner scan of Strategy 2 stops: its
overall count is over three times the rare count, same base command, and
similarity at least the threshold. -/
def rareQual (t : ℚ) (rcmd : String) (rc : Nat) (p : String × Nat) : Bool :=
  decide ((rc * 3 : Nat) < p.2) &&
    decide (get_base_command p.1 = get_base_command rcmd) &&
    decide (t ≤ similarity rcmd p.1)

/-- One command of the merged counter processed: when its count is within
the rare threshold, scan for the first qualifying common candidate and mark
every occurrence not already in the removal set. -/
def rareStep (allCmds : List (String × Nat)) (ctl : List (String × List Nat))
    (settings : CleaningSettings) (existing : Finset Nat)
    (acc : Finset Nat × List (Nat × String)) (r : String × Nat) :
    Finset Nat × List (Nat × String) :=
  if (r.2 : Int) ≤ settings.rare_threshold then
    match allCmds.find? (rareQual settings.similarity_threshold r.1 r.2) with
    | some (c, _) =>
      let idxs := (lookupList ctl r.1).filter (fun i => decide (i ∉ existing))
      (acc.1 ∪ idxs.toFinset, dictUpdate acc.2 (idxs.map (fun i => (i, rareReason c))))
    | none => acc
  else acc

/-- The merged success-plus-failure counter of `_remove_rare_variants`. -/
def allCmdsOf (cmdData : CommandData) : List (String × Nat) :=
  counterMerge (counterMerge [] cmdData.successful_cmds) cmdData.failed_cmds

/-- `_remove_rare_variants`. -/
def removeRareVariants (cmdData : CommandData) (settings : CleaningSettings)
    (existing : Finset Nat) : Finset Nat × List (Nat × String) :=
  let allCmds := allCmdsOf cmdData
  allCmds.foldl (rareStep allCmds cmdData.cmd_to_lines settings existing) (∅, [])

/-! ### `_identify_removals`

Python iterates the duplicate-index set in unspecified order when writing
the "Duplicate" reasons; here that iteration follows the encounter order
(repeated dict assignment, so repeats collapse). Every mapped value is
the same string, so the reason mapping (the lookup function) does not
depend on the order chosen. Note the later
`removal_reasons.update(failed_reasons)` overwrites entries in place. -/

def identifyRemovals (cmdData : CommandData) (seen : List (String × Nat))
    (settings : CleaningSettings) : Finset Nat × List (Nat × String) :=
  let dup := findDuplicateIndices cmdData.cmd_to_lines seen
  let reasons0 := dictUpdate []
    ((dupIndicesList cmdData.cmd_to_lines seen).map (fun i => (i, dupReason)))
  let fr := removeFailedSimilar cmdData settings.similarity_threshold
  let rem1 := dup ∪ fr.1
  let reasons1 := dictUpdate reasons0 fr.2
  if settings.remove_rare then
    let rr := removeRareVariants cmdData settings rem1
    (rem1 ∪ rr.1, dictUpdate reasons1 rr.2)
  else (rem1, reasons1)

/-! ### The parsing pipeline (`_parse_history_file`)

The input is modelled as the list of the file's lines, each already
stripped of its trailing newlines as the per-line `rstrip` does, and the
exit codes as the lookup function of the loaded timestamp map. -/

structure ParseState where
  allLines : List String
  cmdToLines : List (String × List Nat)
  seenCommands : List (String × Nat)
  successfulCmds : List (String × Nat)
  failedCmds : List (String × Nat)

def initState : ParseState := ⟨[], [], [], [], []⟩

/-- One line processed at index `idx`: record it, and when it parses to a
nonempty command and timestamp, index it and count its exit code. -/
def processLine (ec : String → Option Int) (st : ParseState) (idx : Nat)
    (line : String) : ParseState :=
  let st1 := { st with allLines := st.allLines ++ [line] }
  match parseHistoryLine line with
  | none => st1
  | some (ts, cmd) =>
    if cmd ≠ "" ∧ ts ≠ "" then
      let st2 := { st1 with
        cmdToLines := appendIdx cmd idx st1.cmdToLines
        seenCommands :=
          if (alookup cmd st1.seenCommands).isSome then st1.seenCommands
          else st1.seenCommands ++ [(cmd, idx)] }
      match ec ts with
      | some e =>
        if e = 0 then { st2 with successfulCmds := counterAdd cmd 1 st2.successfulCmds }
        else { st2 with failedCmds := counterAdd cmd 1 st2.failedCmds }
      | none => st2
    else st1

def parseLoop (ec : String → Option Int) : ParseState → Nat → List String → ParseState
  | st, _, [] => st
  | st, idx, l :: ls => parseLoop ec (processLine ec st idx l) (idx + 1) ls

/-- `_parse_history_file`. -/
def parseHistoryFile (lines : List String) (ec : String → Option Int) : ParseState :=
  parseLoop ec initState 0 lines

def cmdDataOf (st : ParseState) : CommandData :=
  ⟨st.failedCmds, st.successfulCmds, st.cmdToLines⟩

/-- The full classification: parse, then identify removals. -/
def removalResult (lines : List String) (ec : String → Option Int)
    (settings : CleaningSettings) : Finset Nat × List (Nat × String) :=
  let st := parseHistoryFile lines ec
  identifyRemovals (cmdDataOf st) st.seenCommands settings

def removalSet (lines : List String) (ec : String → Option Int)
    (settings : CleaningSettings) : Finset Nat :=
  (removalResult lines ec settings).1

def removalReasons (lines : List String) (ec : String → Option Int)
    (settings : CleaningSettings) : List (Nat × String) :=
  (removalResult lines ec settings).2

/-! ### The writer (`main`, rewrite loop) -/

/-- The lines the rewrite keeps, in original order. -/
def keptLines (lines : List String) (rs : Finset Nat) : List String :=
  (lines.enum.filter (fun p => decide (p.1 ∉ rs))).map Prod.snd

/-- The rewrite loop of `main`: every line whose index is not removed is
written back followed by a newline. -/
def writeCleaned (lines : List String) (rs : Finset Nat) : String :=
  lines.enum.foldl (fun acc p => if p.1 ∈ rs then acc else acc ++ p.2 ++ "\n") ""

/-! ### Ghost specification functions used by the proofs -/

/-- The indexing condition of `_parse_history_file`: the parse result when
the line parses and both the command and the timestamp are nonempty. -/
def indexedCmd (line : String) : Option (String × String) :=
  match parseHistoryLine line with
  | some (ts, cmd) => if cmd ≠ "" ∧ ts ≠ "" then some (ts, cmd) else none
  | none => none

/-- Does this line get indexed under command `c`? -/
def hitsCmd (c : String) (line : String) : Bool :=
  match indexedCmd line with
  | some (_, c1) => decide (c1 = c)
  | none => false

/-- The indices, starting at `idx`, of the lines indexed under `c`. -/
def pIdx (c : String) : Nat → List String → List Nat
  | _, [] => []
  | idx, l :: ls => (if hitsCmd c l then [idx] else []) ++ pIdx c (idx + 1) ls

/-- Does this line count as a success of `c`? -/
def succHit (ec : String → Option Int) (c : String) (line : String) : Bool :=
  match indexedCmd line with
  | some (ts, c1) => decide (c1 = c) && decide (ec ts = some 0)
  | none => false

/-- Does this line count as a failure of `c`? -/
def failHit (ec : String → Option Int) (c : String) (line : String) : Bool :=
  match indexedCmd line with
  | some (ts, c1) => decide (c1 = c) && (ec ts).any (fun e => decide (e ≠ 0))
  | none => false

/-- Number of success lines of `c`. -/
def sCount (ec : String → Option Int) (c : String) (lines : List String) : Nat :=
  lines.countP (succHit ec c)

/-- Number of failure lines of `c`. -/
def fCount (ec : String → Option Int) (c : String) (lines : List String) : Nat :=
  lines.countP (failHit ec c)

/-! ### Properties of the similarity ratio -/

theorem cpl_le_left : ∀ xs ys : List Char, cpl xs ys ≤ xs.length
  | [], _ => by simp [cpl]
  | _ :: _, [] => by simp [cpl]
  | x :: xs, y :: ys => by
    rw [cpl]
    split
    · simpa using cpl_le_left xs ys
    · simp

theorem cpl_le_right : ∀ xs ys : List Char, cpl xs ys ≤ ys.length
  | [], _ => by simp [cpl]
  | _ :: _, [] => by simp [cpl]
  | x :: xs, y :: ys => by
    rw [cpl]
    split
    · simpa using cpl_le_right xs ys
    · simp

theorem cpl_take_eq : ∀ xs ys : List Char, xs.take (cpl xs ys) = ys.take (cpl xs ys)
  | [], ys => by simp [cpl]
  | _ :: _, [] => by simp [cpl]
  | x :: xs, y :: ys => by
    rw [cpl]
    split
    · rename_i h
      simp [List.take_succ_cons, h, cpl_take_eq xs ys]
    · simp

theorem cpl_self : ∀ xs : List Char, cpl xs xs = xs.length
  | [] => by simp [cpl]
  | x :: xs => by simp [cpl, cpl_self xs]

/-- The invariant kept by the longest-match fold: the block is a real
matching block within both strings. -/
def FlmOk (a b : List Char) (t : Nat × Nat × Nat) : Prop :=
  (a.drop t.1).take t.2.2 = (b.drop t.2.1).take t.2.2 ∧
    t.2.2 ≤ a.length - t.1 ∧ t.2.2 ≤ b.length - t.2.1

theorem flmStep_ok {a b : List Char} {t : Nat × Nat × Nat} (p : Nat × Nat)
    (h : FlmOk a b t) : FlmOk a b (flmStep a b t p) := by
  rw [flmStep]
  split
  · refine ⟨cpl_take_eq _ _, ?_, ?_⟩
    · simpa using cpl_le_left (a.drop p.1) (b.drop p.2)
    · simpa using cpl_le_right (a.drop p.1) (b.drop p.2)
  · exact h

theorem foldl_flmStep_ok {a b : List Char} :
    ∀ (l : List (Nat × Nat)) (t : Nat × Nat × Nat), FlmOk a b t →
      FlmOk a b (l.foldl (flmStep a b) t)
  | [], _, h => h
  | p :: l, _, h => foldl_flmStep_ok l _ (flmStep_ok p h)

theorem flm_ok (a b : List Char) : FlmOk a b (flm a b) :=
  foldl_flmStep_ok _ _ ⟨by simp, by simp, by simp⟩

theorem flm_bounds {a b : List Char} (h : (flm a b).2.2 ≠ 0) :
    (flm a b).1 + (flm a b).2.2 ≤ a.length ∧
      (flm a b).2.1 + (flm a b).2.2 ≤ b.length := by
  obtain ⟨-, h1, h2⟩ := flm_ok a b
  omega

theorem foldl_flmStep_stays {a b : List Char} {i j n : Nat}
    (hn : ∀ p : Nat × Nat, cpl (a.drop p.1) (b.drop p.2) ≤ n) :
    ∀ l : List (Nat × Nat), l.foldl (flmStep a b) (i, j, n) = (i, j, n)
  | [] => rfl
  | p :: l => by
    have h1 : flmStep a b (i, j, n) p = (i, j, n) := by
      rw [flmStep]
      split
      · rename_i hlt
        have hlt2 : n < cpl (a.drop p.1) (b.drop p.2) := hlt
        exact absurd (hn p) (by omega)
      · rfl
    rw [List.foldl_cons, h1, foldl_flmStep_stays hn l]

theorem flm_self {a : List Char} (h : a ≠ []) : flm a a = (0, 0, a.length) := by
  obtain ⟨x, xs, rfl⟩ := List.exists_cons_of_ne_nil h
  rw [flm, candPairs]
  simp only [List.length_cons]
  rw [List.range_succ_eq_map]
  rw [List.flatMap_cons, List.map_cons, List.cons_append, List.foldl_cons]
  have h1 : flmStep (x :: xs) (x :: xs) (0, 0, 0) (0, 0) = (0, 0, (x :: xs).length) := by
    rw [flmStep]
    simp [cpl_self]
  rw [h1]
  have h2 : ∀ p : Nat × Nat,
      cpl ((x :: xs).drop p.1) ((x :: xs).drop p.2) ≤ (x :: xs).length := fun p =>
    le_trans (cpl_le_left _ _) (by simp)
  exact foldl_flmStep_stays h2 _

theorem mtF_nil_left : ∀ f b, mtF f [] b = 0
  | 0, _ => rfl
  | f + 1, b => by
    rw [mtF]
    have h1 : flm [] b = (0, 0, 0) := by rw [flm, candPairs]; simp
    simp [h1]

theorem mtF_nil_right : ∀ f a, mtF f a [] = 0
  | 0, _ => rfl
  | f + 1, a => by
    rw [mtF]
    have h1 : flm a [] = (0, 0, 0) := by
      rw [flm, candPairs]
      have h2 : ((List.range a.length).flatMap fun i =>
          List.map (fun j => (i, j)) (List.range (List.length ([] : List Char)))) =
          ([] : List (Nat × Nat)) := by
        simp
      rw [h2]
      rfl
    simp [h1]

theorem mtF_le_left : ∀ f (a b : List Char), mtF f a b ≤ a.length
  | 0, _, _ => Nat.zero_le _
  | f + 1, a, b => by
    rw [mtF]
    split
    · exact Nat.zero_le _
    · rename_i hk
      have hb := flm_bounds hk
      have h1 := mtF_le_left f (a.take (flm a b).1) (b.take (flm a b).2.1)
      have h2 := mtF_le_left f (a.drop ((flm a b).1 + (flm a b).2.2))
        (b.drop ((flm a b).2.1 + (flm a b).2.2))
      simp only [List.length_take, List.length_drop] at h1 h2
      omega

theorem mtF_le_right : ∀ f (a b : List Char), mtF f a b ≤ b.length
  | 0, _, _ => Nat.zero_le _
  | f + 1, a, b => by
    rw [mtF]
    split
    · exact Nat.zero_le _
    · rename_i hk
      have hb := flm_bounds hk
      have h1 := mtF_le_right f (a.take (flm a b).1) (b.take (flm a b).2.1)
      have h2 := mtF_le_right f (a.drop ((flm a b).1 + (flm a b).2.2))
        (b.drop ((flm a b).2.1 + (flm a b).2.2))
      simp only [List.length_take, List.length_drop] at h1 h2
      omega

theorem mtF_self (f : Nat) (a : List Char) : mtF (f + 1) a a = a.length := by
  rcases eq_or_ne a [] with rfl | h
  · rw [mtF_nil_left]; rfl
  · rw [mtF, flm_self h]
    have hne : a.length ≠ 0 := by simpa using h
    simp only [hne, if_neg hne]
    simp [List.take_zero, List.drop_length, mtF_nil_left]

theorem matchTotal_self (a : List Char) : matchTotal a a = a.length := by
  rcases eq_or_ne a [] with rfl | h
  · rfl
  · have : a.length + a.length = (a.length + a.length - 1) + 1 := by
      have := List.length_pos.mpr h
      omega
    rw [matchTotal, this, mtF_self]

theorem mtF_full : ∀ f (a b : List Char),
    mtF f a b = a.length → mtF f a b = b.length → a = b
  | 0, a, b, ha, hb => by
    rw [mtF] at ha hb
    rw [List.length_eq_zero.mp ha.symm, List.length_eq_zero.mp hb.symm]
  | f + 1, a, b, ha, hb => by
    rw [mtF] at ha hb
    by_cases hk : (flm a b).2.2 = 0
    · rw [if_pos hk] at ha hb
      rw [List.length_eq_zero.mp ha.symm, List.length_eq_zero.mp hb.symm]
    · rw [if_neg hk] at ha hb
      obtain ⟨hblock, hka, hkb⟩ := flm_ok a b
      have hb2 := flm_bounds hk
      set i := (flm a b).1 with hi
      set j := (flm a b).2.1 with hj
      set k := (flm a b).2.2 with hkdef
      have l1 := mtF_le_left f (a.take i) (b.take j)
      have l2 := mtF_le_right f (a.take i) (b.take j)
      have r1 := mtF_le_left f (a.drop (i + k)) (b.drop (j + k))
      have r2 := mtF_le_right f (a.drop (i + k)) (b.drop (j + k))
      simp only [List.length_take, List.length_drop] at l1 l2 r1 r2
      have hL1 : mtF f (a.take i) (b.take j) = (a.take i).length := by
        simp only [List.length_take]; omega
      have hL2 : mtF f (a.take i) (b.take j) = (b.take j).length := by
        simp only [List.length_take]; omega
      have hR1 : mtF f (a.drop (i + k)) (b.drop (j + k)) = (a.drop (i + k)).length := by
        simp only [List.length_drop]; omega
      have hR2 : mtF f (a.drop (i + k)) (b.drop (j + k)) = (b.drop (j + k)).length := by
        simp only [List.length_drop]; omega
      have eL := mtF_full f _ _ hL1 hL2
      have eR := mtF_full f _ _ hR1 hR2
      have deca : a = a.take i ++ (a.drop i).take k ++ a.drop (i + k) := by
        rw [List.append_assoc, ← List.drop_drop]
        rw [List.take_append_drop, List.take_append_drop]
      have decb : b = b.take j ++ (b.drop j).take k ++ b.drop (j + k) := by
        rw [List.append_assoc, ← List.drop_drop]
        rw [List.take_append_drop, List.take_append_drop]
      rw [deca, decb, eL, hblock, eR]

theorem matchTotal_full {a b : List Char} (ha : matchTotal a b = a.length)
    (hb : matchTotal a b = b.length) : a = b :=
  mtF_full _ a b ha hb

theorem ratioQ_eq_one_iff (a b : List Char) : ratioQ a b = 1 ↔ a = b := by
  constructor
  · intro h
    rw [ratioQ] at h
    split at h
    · rename_i h0
      have ha : a = [] := List.length_eq_zero.mp (by omega)
      have hb : b = [] := List.length_eq_zero.mp (by omega)
      rw [ha, hb]
    · rename_i h0
      rw [Rat.mkRat_eq_div] at h
      have hT : ((a.length + b.length : Nat) : ℚ) ≠ 0 := by
        exact_mod_cast h0
      rw [div_eq_one_iff_eq hT] at h
      have h2 : 2 * matchTotal a b = a.length + b.length := by exact_mod_cast h
      have m1 := mtF_le_left (a.length + b.length) a b
      have m2 := mtF_le_right (a.length + b.length) a b
      rw [← matchTotal] at m1 m2
      exact matchTotal_full (by omega) (by omega)
  · rintro rfl
    rw [ratioQ]
    split
    · rfl
    · rename_i h0
      rw [matchTotal_self, Rat.mkRat_eq_div]
      rw [div_eq_one_iff_eq (by exact_mod_cast h0)]
      push_cast
      ring

theorem similarity_eq_one_iff (a b : String) : similarity a b = 1 ↔ a = b := by
  rw [similarity, ratioQ_eq_one_iff]
  exact ⟨fun h => String.ext h, fun h => congrArg String.data h⟩

/-- Claim C3, counterexample: the similarity measure of the implementation
is not symmetric. At a = "aba", b = "babba" the two orders give 3/4 and
1/2: the longest-block tie-break (earliest start in the first string)
picks different blocks in the two directions. -/
theorem C3_counterexample :
    ¬ (similarity "aba" "babba" = similarity "babba" "aba") ∧
    similarity "aba" "babba" = mkRat 3 4 ∧
    similarity "babba" "aba" = mkRat 1 2 :=
  ⟨by decide, by decide, by decide⟩

/-- Claim C3 (amended): the similarity function returns 1 exactly when the
two strings are equal (in particular similarity(a,a) = 1 for every string),
and similarity("abc","xyz") < 0.5; symmetry, however, does not hold in
general. -/
theorem C3_amended :
    (∀ a b : String, similarity a b = 1 ↔ a = b) ∧
    (∀ a : String, similarity a a = 1) ∧
    similarity "abc" "xyz" < mkRat 1 2 :=
  ⟨similarity_eq_one_iff, fun a => (similarity_eq_one_iff a a).mpr rfl, by decide⟩

/-! ### Association-list lemmas -/

theorem nlookup_dictInsert (x k : Nat) (v : String) :
    ∀ m, nlookup x (dictInsert k v m) = if k = x then some v else nlookup x m := by
  intro m
  induction m with
  | nil => simp [dictInsert, nlookup]
  | cons kv t ih =>
    obtain ⟨k1, v1⟩ := kv
    simp only [dictInsert]
    by_cases h : k1 = k
    · rw [if_pos h, nlookup]
      by_cases h2 : k = x
      · rw [if_pos h2, if_pos h2]
      · rw [if_neg h2, if_neg h2, nlookup, if_neg (fun hh => h2 (h.symm.trans hh))]
    · rw [if_neg h, nlookup, nlookup, ih]
      split_ifs <;> simp_all

theorem nlookup_dictUpdate_const (v : String) :
    ∀ (src m : List (Nat × String)) (x : Nat), (∀ p ∈ src, p.2 = v) →
      nlookup x (dictUpdate m src) =
        if x ∈ src.map Prod.fst then some v else nlookup x m
  | [], m, x, _ => by simp [dictUpdate]
  | kv :: t, m, x, h => by
    rw [dictUpdate, List.foldl_cons]
    have ih := nlookup_dictUpdate_const v t (dictInsert kv.1 kv.2 m) x
      (fun p hp => h p (List.mem_cons_of_mem kv hp))
    rw [dictUpdate] at ih
    rw [ih, nlookup_dictInsert]
    have hv : kv.2 = v := h kv (List.mem_cons_self kv t)
    by_cases h1 : x ∈ t.map Prod.fst
    · rw [if_pos h1, if_pos (by simp [h1])]
    · rw [if_neg h1]
      by_cases h2 : kv.1 = x
      · rw [if_pos h2, hv, if_pos (by simp [h2])]
      · rw [if_neg h2, if_neg ?_]
        simp only [List.map_cons, List.mem_cons]
        rintro (hh | hh)
        · exact h2 hh.symm
        · exact h1 hh

theorem keys_dictInsert (k : Nat) (v : String) :
    ∀ m, (dictInsert k v m).map Prod.fst =
      if k ∈ m.map Prod.fst then m.map Prod.fst else m.map Prod.fst ++ [k]
  | [] => by simp [dictInsert]
  | (k1, v1) :: t => by
    rw [dictInsert]
    split
    · rename_i h; subst h; simp
    · rename_i h
      simp only [List.map_cons, keys_dictInsert k v t, List.mem_cons]
      split <;> split <;> simp_all [eq_comm]

theorem nodup_keys_dictInsert (k : Nat) (v : String) (m : List (Nat × String))
    (h : (m.map Prod.fst).Nodup) : ((dictInsert k v m).map Prod.fst).Nodup := by
  rw [keys_dictInsert]
  split
  · exact h
  · rename_i hk
    simp [List.nodup_append, h, hk]

theorem nodup_keys_dictUpdate (src : List (Nat × String)) :
    ∀ m, ((m : List (Nat × String)).map Prod.fst).Nodup →
      ((dictUpdate m src).map Prod.fst).Nodup := by
  induction src with
  | nil => intro m h; exact h
  | cons kv rest ih =>
    intro m h
    rw [dictUpdate, List.foldl_cons]
    exact ih _ (nodup_keys_dictInsert kv.1 kv.2 m h)

theorem keys_dictUpdate_subset (src : List (Nat × String)) :
    ∀ m x, x ∈ (dictUpdate m src).map Prod.fst →
      x ∈ m.map Prod.fst ∨ x ∈ src.map Prod.fst := by
  induction src with
  | nil => intro m x h; exact Or.inl h
  | cons kv rest ih =>
    intro m x h
    rw [dictUpdate, List.foldl_cons] at h
    rcases ih _ x h with h1 | h1
    · rw [keys_dictInsert] at h1
      split at h1
      · exact Or.inl h1
      · rcases List.mem_append.mp h1 with h2 | h2
        · exact Or.inl h2
        · simp at h2
          subst h2
          exact Or.inr (by simp)
    · exact Or.inr (by simp [h1])

theorem nlookup_eq_none_of_not_mem_keys {x : Nat} :
    ∀ {m : List (Nat × String)}, x ∉ m.map Prod.fst → nlookup x m = none
  | [], _ => rfl
  | (k1, v1) :: t, h => by
    rw [nlookup]
    simp only [List.map_cons, List.mem_cons] at h
    push_neg at h
    rw [if_neg (Ne.symm h.1), nlookup_eq_none_of_not_mem_keys h.2]

theorem nlookup_isSome_iff_mem_keys {x : Nat} :
    ∀ {m : List (Nat × String)}, (nlookup x m).isSome ↔ x ∈ m.map Prod.fst := by
  intro m
  induction m with
  | nil => simp [nlookup]
  | cons kv t ih =>
    rw [nlookup]
    split
    · rename_i h; simp [← h]
    · rename_i h
      simpa [Ne.symm h] using ih

theorem nlookup_dictUpdate (src : List (Nat × String)) (hsrc : (src.map Prod.fst).Nodup) :
    ∀ (m : List (Nat × String)) (x : Nat),
      nlookup x (dictUpdate m src) = (nlookup x src).orElse (fun _ => nlookup x m) := by
  induction src with
  | nil => intro m x; simp [dictUpdate, nlookup]
  | cons kv rest ih =>
    intro m x
    simp only [List.map_cons, List.nodup_cons] at hsrc
    rw [dictUpdate, List.foldl_cons, ← dictUpdate]
    rw [ih hsrc.2, nlookup]
    split
    · rename_i h
      have hx : x ∉ rest.map Prod.fst := by rw [← h]; exact hsrc.1
      rw [nlookup_eq_none_of_not_mem_keys hx, nlookup_dictInsert, if_pos h]
      rfl
    · rename_i h
      have h2 : nlookup x (dictInsert kv.1 kv.2 m) = nlookup x m := by
        rw [nlookup_dictInsert, if_neg h]
      simp only [h2]



/-! ### Strategy 0: characterization -/

theorem mem_dupStep {seen : List (String × Nat)} {acc : List Nat}
    {e : String × List Nat} {x : Nat} :
    x ∈ dupStep seen acc e ↔
      x ∈ acc ∨ (1 < e.2.length ∧ ∃ f, alookup e.1 seen = some f ∧ x ∈ e.2 ∧ x ≠ f) := by
  rw [dupStep]
  split
  · rename_i hlen
    cases halo : alookup e.1 seen with
    | none => simp [hlen]
    | some f =>
      simp only [List.mem_append, List.mem_filter, decide_eq_true_eq, hlen, true_and]
      constructor
      · rintro (h | ⟨h1, h2⟩)
        · exact Or.inl h
        · exact Or.inr ⟨f, rfl, h1, h2⟩
      · rintro (h | ⟨f2, hf2, h1, h2⟩)
        · exact Or.inl h
        · injection hf2 with hf3
          subst hf3
          exact Or.inr ⟨h1, h2⟩
  · rename_i hlen
    simp [hlen]

theorem mem_foldl_dupStep {seen : List (String × Nat)} :
    ∀ (l : List (String × List Nat)) (acc : List Nat) (x : Nat),
      x ∈ l.foldl (dupStep seen) acc ↔
        x ∈ acc ∨ ∃ e ∈ l, 1 < e.2.length ∧
          ∃ f, alookup e.1 seen = some f ∧ x ∈ e.2 ∧ x ≠ f := by
  intro l
  induction l with
  | nil => simp
  | cons e t ih =>
    intro acc x
    rw [List.foldl_cons, ih, mem_dupStep]
    simp only [List.mem_cons]
    constructor
    · rintro ((h | h) | ⟨e2, he2, h⟩)
      · exact Or.inl h
      · exact Or.inr ⟨e, Or.inl rfl, h⟩
      · exact Or.inr ⟨e2, Or.inr he2, h⟩
    · rintro (h | ⟨e2, (rfl | he2), h⟩)
      · exact Or.inl (Or.inl h)
      · exact Or.inl (Or.inr h)
      · exact Or.inr ⟨e2, he2, h⟩

theorem mem_findDuplicateIndices {ctl : List (String × List Nat)}
    {seen : List (String × Nat)} {x : Nat} :
    x ∈ findDuplicateIndices ctl seen ↔
      ∃ e ∈ ctl, 1 < e.2.length ∧
        ∃ f, alookup e.1 seen = some f ∧ x ∈ e.2 ∧ x ≠ f := by
  rw [findDuplicateIndices, List.mem_toFinset, dupIndicesList, mem_foldl_dupStep]
  simp

/-- Claim C7: the duplicate strategy marks, for every command with more
than one recorded occurrence, exactly the occurrences other than the
first-seen index; a command occurring once is never marked; the reason
mapping that Strategy 0 contributes in `_identify_removals` assigns
"Duplicate" to exactly the marked indices; and on the spec example
ls -la at `[0, 5, 10]` with first-seen 0 the removal set is exactly
`{5, 10}`. -/
theorem C7_duplicate_strategy :
    (∀ (ctl : List (String × List Nat)) (seen : List (String × Nat)) (x : Nat),
      x ∈ findDuplicateIndices ctl seen ↔
        ∃ e ∈ ctl, 1 < e.2.length ∧
          ∃ f, alookup e.1 seen = some f ∧ x ∈ e.2 ∧ x ≠ f) ∧
    (∀ (ctl : List (String × List Nat)) (seen : List (String × Nat)) (i : Nat),
      nlookup i (dictUpdate []
          ((dupIndicesList ctl seen).map (fun j => (j, dupReason)))) =
        if i ∈ findDuplicateIndices ctl seen then some dupReason else none) ∧
    findDuplicateIndices [("ls -la", [0, 5, 10])] [("ls -la", 0)] = {5, 10} := by
  refine ⟨fun _ _ _ => mem_findDuplicateIndices, ?_, by decide⟩
  intro ctl seen i
  rw [nlookup_dictUpdate_const dupReason _ _ _ (by simp)]
  simp [List.map_map, Function.comp_def, findDuplicateIndices, nlookup]



/-! ### Strategy 1: the inner scan -/

theorem find?_append_of_false {α : Type} {p : α → Bool} :
    ∀ {l1 : List α}, (∀ x ∈ l1, p x = false) → ∀ l2, (l1 ++ l2).find? p = l2.find? p
  | [], _, l2 => rfl
  | a :: t, h, l2 => by
    rw [List.cons_append, List.find?_cons_of_neg, find?_append_of_false (fun x hx => h x (List.mem_cons_of_mem a hx)) l2]
    simp [h a (List.mem_cons_self a t)]

/-- Claim C5: the prefix rule. When the scan of the successful candidates
reaches `(S, sc)` (every earlier candidate fires no rule), the base
commands agree, `S` strictly extends the failed command `f`, and the
success count exceeds the failure count, then every line index of `f` is
marked with reason "Failed prefix of 'S'" and the candidates after `S`
are never consulted (the conclusion does not depend on `rest`); no bound
on the similarity of `f` and `S` is required anywhere. -/
theorem C5_failed_kept_as_proper_start (t : ℚ) (ctl : List (String × List Nat))
    (pre rest : List (String × Nat)) (f S : String) (fc sc : Nat)
    (acc : Finset Nat × List (Nat × String))
    (hpre : ∀ p ∈ pre, s1qual t f fc p = false)
    (hbase : get_base_command S = get_base_command f)
    (hsw : f.data.isPrefixOf S.data = true) (hne : S ≠ f)
    (hlen : f.length < S.length) (hcnt : fc < sc) :
    s1step ctl (pre ++ (S, sc) :: rest) t acc (f, fc) =
      (acc.1 ∪ (lookupList ctl f).toFinset,
        dictUpdate acc.2 ((lookupList ctl f).map (fun i => (i, pfxReason S)))) := by
  have hpf : pfxRule f fc S sc = true := by
    rw [pfxRule]
    simp [hsw, hne, hlen, hcnt]
  have hq : s1qual t f fc (S, sc) = true := by
    rw [s1qual]
    simp [hbase, hpf]
  have hfind : (pre ++ (S, sc) :: rest).find? (s1qual t f fc) = some (S, sc) := by
    rw [find?_append_of_false hpre, List.find?_cons_of_pos _ hq]
  simp only [s1step, hfind, hpf, if_true]

/-- Claim C4: the similarity rule. When the scan reaches `(S, sc)`, the
base commands agree, the prefix rule does not fire on `S`, and the rule
conditions hold — similarity in `[threshold, 1)`, strictly excluding 1,
and more successes than failures — every line index of `f` is marked with
reason "Failed similar to 'S'" and later candidates are never consulted;
the similarity rule never fires when the failed command equals
the successful one, whatever the counts and the threshold, because
similarity of a string with itself is 1; and the similarity rule fires
exactly when similarity lies in `[threshold, 1)` — strictly excluding
1 — and the success count exceeds the failure count. -/
theorem C4_failed_similar_rule :
    (∀ (t : ℚ) (ctl : List (String × List Nat))
      (pre rest : List (String × Nat)) (f S : String) (fc sc : Nat)
      (acc : Finset Nat × List (Nat × String)),
      (∀ p ∈ pre, s1qual t f fc p = false) →
      get_base_command S = get_base_command f →
      pfxRule f fc S sc = false →
      t ≤ similarity f S → similarity f S < 1 → fc < sc →
      s1step ctl (pre ++ (S, sc) :: rest) t acc (f, fc) =
        (acc.1 ∪ (lookupList ctl f).toFinset,
          dictUpdate acc.2 ((lookupList ctl f).map (fun i => (i, simReason S))))) ∧
    (∀ (t : ℚ) (f : String) (fc sc : Nat), simRule t f fc f sc = false) ∧
    (∀ (t : ℚ) (f S : String) (fc sc : Nat),
      simRule t f fc S sc = true ↔
        (t ≤ similarity f S ∧ similarity f S < 1 ∧ fc < sc)) := by
  refine ⟨?_, ?_, ?_⟩
  · intro t ctl pre rest f S fc sc acc hpre hbase hpf hts hlt hcnt
    have hsim : simRule t f fc S sc = true := by
      rw [simRule]
      simp [hts, hlt, hcnt]
    have hq : s1qual t f fc (S, sc) = true := by
      rw [s1qual]
      simp [hbase, hsim]
    have hfind : (pre ++ (S, sc) :: rest).find? (s1qual t f fc) = some (S, sc) := by
      rw [find?_append_of_false hpre, List.find?_cons_of_pos _ hq]
    simp only [s1step, hfind, hpf, if_false, Bool.false_eq_true]
  · intro t f fc sc
    rw [simRule]
    have h1 : similarity f f = 1 := (similarity_eq_one_iff f f).mpr rfl
    simp [h1]
  · intro t f S fc sc
    rw [simRule]
    simp [and_assoc]



set_option maxRecDepth 100000

theorem C5_witness :
    s1step [("mise ins", [0, 1])] [("mise install", 10)] (mkRat 4 5) (∅, []) ("mise ins", 2) =
      ({0, 1}, [(0, pfxReason "mise install"), (1, pfxReason "mise install")]) := by
  have h := C5_failed_kept_as_proper_start (mkRat 4 5) [("mise ins", [0, 1])] [] []
    "mise ins" "mise install" 2 10 (∅, []) (by simp) (by decide) (by decide)
    (by decide) (by decide) (by decide)
  exact h.trans (by decide)

theorem C4_witness :
    s1step [("git statsu", [0])] [("git status", 10)] (mkRat 4 5) (∅, []) ("git statsu", 1) =
      ({0}, [(0, simReason "git status")]) := by
  have h := C4_failed_similar_rule.1 (mkRat 4 5) [("git statsu", [0])] [] []
    "git statsu" "git status" 1 10 (∅, []) (by simp) (by decide) (by decide)
    (by decide) (by decide) (by decide)
  exact h.trans (by decide)



/-! ### Strategy 2: rare variants -/

theorem mem_dictInsert {p : Nat × String} {k : Nat} {v : String} :
    ∀ {m : List (Nat × String)}, p ∈ dictInsert k v m → p ∈ m ∨ p.1 = k
  | [], h => by
    rw [dictInsert] at h
    simp at h
    simp [h]
  | (k1, v1) :: t, h => by
    rw [dictInsert] at h
    split at h
    · rcases List.mem_cons.mp h with h1 | h1
      · simp [h1]
      · exact Or.inl (List.mem_cons_of_mem _ h1)
    · rcases List.mem_cons.mp h with h1 | h1
      · exact Or.inl (by simp [h1])
      · rcases mem_dictInsert h1 with h2 | h2
        · exact Or.inl (List.mem_cons_of_mem _ h2)
        · exact Or.inr h2

theorem mem_dictUpdate {p : Nat × String} :
    ∀ {src m : List (Nat × String)}, p ∈ dictUpdate m src →
      p ∈ m ∨ p.1 ∈ src.map Prod.fst
  | [], _, h => Or.inl h
  | kv :: rest, m, h => by
    rw [dictUpdate, List.foldl_cons, ← dictUpdate] at h
    rcases mem_dictUpdate h with h1 | h1
    · rcases mem_dictInsert h1 with h2 | h2
      · exact Or.inl h2
      · exact Or.inr (by simp [h2])
    · exact Or.inr (by simp [h1])

theorem rareStep_above_threshold {allCmds : List (String × Nat)}
    {ctl : List (String × List Nat)} {settings : CleaningSettings}
    {existing : Finset Nat} {acc : Finset Nat × List (Nat × String)}
    {r : String} {rc : Nat} (h : settings.rare_threshold < (rc : Int)) :
    rareStep allCmds ctl settings existing acc (r, rc) = acc := by
  rw [rareStep, if_neg (by simpa using h)]

theorem rareStep_prov {allCmds : List (String × Nat)}
    {ctl : List (String × List Nat)} {settings : CleaningSettings}
    {existing : Finset Nat} {acc : Finset Nat × List (Nat × String)}
    {e : String × Nat} :
    (∀ x ∈ (rareStep allCmds ctl settings existing acc e).1,
      x ∈ acc.1 ∨ ((e.2 : Int) ≤ settings.rare_threshold ∧
        x ∈ lookupList ctl e.1 ∧ x ∉ existing)) ∧
    (∀ p ∈ (rareStep allCmds ctl settings existing acc e).2,
      p ∈ acc.2 ∨ ((e.2 : Int) ≤ settings.rare_threshold ∧
        p.1 ∈ lookupList ctl e.1 ∧ p.1 ∉ existing)) := by
  rw [rareStep]
  split
  · rename_i hth
    cases hf : (allCmds.find? (rareQual settings.similarity_threshold e.1 e.2)) with
    | none => exact ⟨fun x hx => Or.inl hx, fun p hp => Or.inl hp⟩
    | some c =>
      obtain ⟨cc, ccc⟩ := c
      constructor
      · intro x hx
        simp only [Finset.mem_union, List.mem_toFinset, List.mem_filter,
          decide_eq_true_eq] at hx
        rcases hx with hx | ⟨hx1, hx2⟩
        · exact Or.inl hx
        · exact Or.inr ⟨hth, hx1, hx2⟩
      · intro p hp
        simp only at hp
        rcases mem_dictUpdate hp with h1 | h1
        · exact Or.inl h1
        · simp only [List.map_map] at h1
          rcases List.mem_map.mp h1 with ⟨i, hi, hip⟩
          simp only [Function.comp] at hip
          rcases List.mem_filter.mp hi with ⟨hi1, hi2⟩
          subst hip
          exact Or.inr ⟨hth, hi1, by simpa using hi2⟩
  · exact ⟨fun x hx => Or.inl hx, fun p hp => Or.inl hp⟩

theorem rare_foldl_prov (ctl : List (String × List Nat)) (settings : CleaningSettings)
    (existing : Finset Nat) (allCmds : List (String × Nat)) :
    ∀ (l : List (String × Nat)) (acc : Finset Nat × List (Nat × String)),
      (∀ x ∈ (l.foldl (rareStep allCmds ctl settings existing) acc).1,
        x ∈ acc.1 ∨ ∃ r ∈ l, (r.2 : Int) ≤ settings.rare_threshold ∧
          x ∈ lookupList ctl r.1 ∧ x ∉ existing) ∧
      (∀ p ∈ (l.foldl (rareStep allCmds ctl settings existing) acc).2,
        p ∈ acc.2 ∨ ∃ r ∈ l, (r.2 : Int) ≤ settings.rare_threshold ∧
          p.1 ∈ lookupList ctl r.1 ∧ p.1 ∉ existing)
  | [], acc => by simp
  | e :: t, acc => by
    rw [List.foldl_cons]
    have ih := rare_foldl_prov ctl settings existing allCmds t
      (rareStep allCmds ctl settings existing acc e)
    constructor
    · intro x hx
      rcases ih.1 x hx with h1 | ⟨r, hr, h2⟩
      · rcases rareStep_prov.1 x h1 with h2 | h2
        · exact Or.inl h2
        · exact Or.inr ⟨e, List.mem_cons_self e t, h2⟩
      · exact Or.inr ⟨r, List.mem_cons_of_mem e hr, h2⟩
    · intro p hp
      rcases ih.2 p hp with h1 | ⟨r, hr, h2⟩
      · rcases rareStep_prov.2 p h1 with h2 | h2
        · exact Or.inl h2
        · exact Or.inr ⟨e, List.mem_cons_self e t, h2⟩
      · exact Or.inr ⟨r, List.mem_cons_of_mem e hr, h2⟩

/-- Claim C6: the rare-variant strategy. First conjunct: when the scan of
the merged counter reaches a first qualifying candidate `(C, cc)` — count
over three times the rare count, same base, similarity at least the
threshold — for a rare command `(r, rc)` within the rare threshold, it
marks exactly the occurrences of `r` not already in the removal set with
reason "Rare variant of 'C'", and never consults the candidates after
`C`. Second conjunct: a command whose combined count exceeds the rare
threshold is never processed. Third conjunct: every index the strategy
marks (and every reason entry it writes) stems from a command whose
combined count is within the rare threshold and was not already in the
removal set. Fourth conjunct: with remove-rare disabled, the strategy is
not consulted at all. -/
theorem C6_rare_variant_strategy :
    (∀ (ctl : List (String × List Nat)) (settings : CleaningSettings)
      (existing : Finset Nat) (acc : Finset Nat × List (Nat × String))
      (pre rest : List (String × Nat)) (r C : String) (rc cc : Nat),
      (rc : Int) ≤ settings.rare_threshold →
      (∀ p ∈ pre, rareQual settings.similarity_threshold r rc p = false) →
      rc * 3 < cc → get_base_command C = get_base_command r →
      settings.similarity_threshold ≤ similarity r C →
      rareStep (pre ++ (C, cc) :: rest) ctl settings existing acc (r, rc) =
        (acc.1 ∪ ((lookupList ctl r).filter (fun i => decide (i ∉ existing))).toFinset,
          dictUpdate acc.2 (((lookupList ctl r).filter
            (fun i => decide (i ∉ existing))).map (fun i => (i, rareReason C))))) ∧
    (∀ (allCmds : List (String × Nat)) (ctl : List (String × List Nat))
      (settings : CleaningSettings) (existing : Finset Nat)
      (acc : Finset Nat × List (Nat × String)) (r : String) (rc : Nat),
      settings.rare_threshold < (rc : Int) →
      rareStep allCmds ctl settings existing acc (r, rc) = acc) ∧
    (∀ (cmdData : CommandData) (settings : CleaningSettings) (existing : Finset Nat),
      ∀ x ∈ (removeRareVariants cmdData settings existing).1,
        ∃ r ∈ allCmdsOf cmdData, (r.2 : Int) ≤ settings.rare_threshold ∧
          x ∈ lookupList cmdData.cmd_to_lines r.1 ∧ x ∉ existing) ∧
    (∀ (cmdData : CommandData) (seen : List (String × Nat)) (settings : CleaningSettings),
      settings.remove_rare = false →
      identifyRemovals cmdData seen settings =
        (findDuplicateIndices cmdData.cmd_to_lines seen ∪
          (removeFailedSimilar cmdData settings.similarity_threshold).1,
         dictUpdate (dictUpdate []
            ((dupIndicesList cmdData.cmd_to_lines seen).map (fun i => (i, dupReason))))
           (removeFailedSimilar cmdData settings.similarity_threshold).2)) := by
  refine ⟨?_, ?_, ?_, ?_⟩
  · intro ctl settings existing acc pre rest r C rc cc hth hpre h3 hbase hsim
    have hq : rareQual settings.similarity_threshold r rc (C, cc) = true := by
      rw [rareQual]
      simp [h3, hbase, hsim]
    have hfind : (pre ++ (C, cc) :: rest).find?
        (rareQual settings.similarity_threshold r rc) = some (C, cc) := by
      rw [find?_append_of_false hpre, List.find?_cons_of_pos _ hq]
    rw [rareStep, if_pos (by simpa using hth)]
    simp only [hfind]
  · intro allCmds ctl settings existing acc r rc h
    exact rareStep_above_threshold h
  · intro cmdData settings existing x hx
    rcases (rare_foldl_prov _ _ _ _ _ _).1 x hx with h1 | ⟨r, hr, h2⟩
    · simp at h1
    · exact ⟨r, hr, h2⟩
  · intro cmdData seen settings h
    rw [identifyRemovals, h]
    simp

set_option maxRecDepth 100000 in
theorem C6_witness :
    rareStep [("git statsu", 2), ("git status", 20)] [("git statsu", [3, 4])]
        ⟨mkRat 4 5, 3, true⟩ {3} (∅, []) ("git statsu", 2) =
      ({4}, [(4, rareReason "git status")]) := by
  have h := C6_rare_variant_strategy.1 [("git statsu", [3, 4])] ⟨mkRat 4 5, 3, true⟩
    ({3} : Finset Nat) (∅, []) [("git statsu", 2)] [] "git statsu" "git status" 2 20
    (by decide) (by decide) (by decide) (by decide) (by decide)
  exact h.trans (by decide)



/-! ### Reason bookkeeping in `_identify_removals` -/

theorem nlookup_dictUpdate_not_mem {x : Nat} :
    ∀ {src m : List (Nat × String)}, x ∉ src.map Prod.fst →
      nlookup x (dictUpdate m src) = nlookup x m
  | [], _, _ => rfl
  | kv :: rest, m, h => by
    rw [dictUpdate, List.foldl_cons, ← dictUpdate]
    simp only [List.map_cons, List.mem_cons] at h
    push_neg at h
    rw [nlookup_dictUpdate_not_mem h.2, nlookup_dictInsert, if_neg (Ne.symm h.1)]

/-- The running invariant of Strategy 1: the reason keys are distinct and
every key is in the removal set. -/
def S1Inv (acc : Finset Nat × List (Nat × String)) : Prop :=
  (acc.2.map Prod.fst).Nodup ∧ ∀ i ∈ acc.2.map Prod.fst, i ∈ acc.1

theorem s1step_inv {ctl : List (String × List Nat)} {succs : List (String × Nat)}
    {t : ℚ} {acc : Finset Nat × List (Nat × String)} {f : String × Nat}
    (h : S1Inv acc) : S1Inv (s1step ctl succs t acc f) := by
  rw [s1step]
  cases hf : succs.find? (s1qual t f.1 f.2) with
  | none => exact h
  | some s =>
    obtain ⟨scmd, sc⟩ := s
    refine ⟨nodup_keys_dictUpdate _ _ h.1, ?_⟩
    intro i hi
    rcases keys_dictUpdate_subset _ _ _ hi with h1 | h1
    · exact Finset.mem_union_left _ (h.2 i h1)
    · refine Finset.mem_union_right _ ?_
      simp only [List.map_map, Function.comp] at h1
      simpa using h1

theorem s1_foldl_inv {ctl : List (String × List Nat)} {succs : List (String × Nat)}
    {t : ℚ} : ∀ (l : List (String × Nat)) (acc : Finset Nat × List (Nat × String)),
      S1Inv acc → S1Inv (l.foldl (s1step ctl succs t) acc)
  | [], _, h => h
  | _ :: rest, _, h => s1_foldl_inv rest _ (s1step_inv h)

theorem removeFailedSimilar_inv (cmdData : CommandData) (t : ℚ) :
    S1Inv (removeFailedSimilar cmdData t) :=
  s1_foldl_inv _ _ ⟨List.nodup_nil, by simp⟩

theorem removeRare_reasons_not_existing (cmdData : CommandData)
    (settings : CleaningSettings) (existing : Finset Nat) :
    ∀ p ∈ (removeRareVariants cmdData settings existing).2, p.1 ∉ existing := by
  intro p hp
  rw [removeRareVariants] at hp
  rcases (rare_foldl_prov _ _ _ _ _ _).2 p hp with h | ⟨r, _, _, _, h⟩
  · simp at h
  · exact h

/-- Claim C1 (amended): each line index appears at most once in the reason
mapping (its keys are distinct), and the rare-variant strategy never
assigns a reason to an index already in the removal set; but between
Strategy 0 and Strategy 1 it is the later strategy that wins: wherever
Strategy 1 writes a reason, the final mapping holds Strategy 1's reason,
even when Strategy 0 had marked the same index "Duplicate". -/
theorem C1_reason_mapping :
    (∀ (cmdData : CommandData) (seen : List (String × Nat))
      (settings : CleaningSettings),
      (((identifyRemovals cmdData seen settings).2).map Prod.fst).Nodup) ∧
    (∀ (cmdData : CommandData) (seen : List (String × Nat))
      (settings : CleaningSettings) (i : Nat),
      i ∈ (removeFailedSimilar cmdData settings.similarity_threshold).2.map Prod.fst →
      nlookup i (identifyRemovals cmdData seen settings).2 =
        nlookup i (removeFailedSimilar cmdData settings.similarity_threshold).2) ∧
    (∀ (cmdData : CommandData) (seen : List (String × Nat))
      (settings : CleaningSettings) (i : Nat),
      i ∈ findDuplicateIndices cmdData.cmd_to_lines seen ∪
          (removeFailedSimilar cmdData settings.similarity_threshold).1 →
      nlookup i (identifyRemovals cmdData seen settings).2 =
        nlookup i (dictUpdate
          (dictUpdate [] ((dupIndicesList cmdData.cmd_to_lines seen).map
            (fun j => (j, dupReason))))
          (removeFailedSimilar cmdData settings.similarity_threshold).2)) := by
  have keys0 : ∀ (ctl : List (String × List Nat)) (seen : List (String × Nat)),
      (((dictUpdate [] ((dupIndicesList ctl seen).map (fun j => (j, dupReason)))) :
        List (Nat × String)).map Prod.fst).Nodup := by
    intro ctl seen
    exact nodup_keys_dictUpdate _ [] List.nodup_nil
  have hrare : ∀ (cmdData : CommandData) (settings : CleaningSettings)
      (existing : Finset Nat) (i : Nat), i ∈ existing →
      i ∉ (removeRareVariants cmdData settings existing).2.map Prod.fst := by
    intro cmdData settings existing i hex hi
    rcases List.mem_map.mp hi with ⟨p, hp, hpi⟩
    exact removeRare_reasons_not_existing cmdData settings existing p hp (hpi ▸ hex)
  refine ⟨?_, ?_, ?_⟩
  · intro cmdData seen settings
    rw [identifyRemovals]
    split
    · exact nodup_keys_dictUpdate _ _ (nodup_keys_dictUpdate _ _ (keys0 _ _))
    · exact nodup_keys_dictUpdate _ _ (keys0 _ _)
  · intro cmdData seen settings i hi
    have hinv := removeFailedSimilar_inv cmdData settings.similarity_threshold
    have hs : nlookup i (dictUpdate
        (dictUpdate [] ((dupIndicesList cmdData.cmd_to_lines seen).map
          (fun j => (j, dupReason))))
        (removeFailedSimilar cmdData settings.similarity_threshold).2) =
        nlookup i (removeFailedSimilar cmdData settings.similarity_threshold).2 := by
      rw [nlookup_dictUpdate _ hinv.1]
      rcases Option.isSome_iff_exists.mp (nlookup_isSome_iff_mem_keys.mpr hi) with ⟨v, hv⟩
      rw [hv]
      rfl
    rw [identifyRemovals]
    split
    · rename_i hrr
      rw [nlookup_dictUpdate_not_mem, hs]
      exact hrare _ _ _ i (Finset.mem_union_right _ (hinv.2 i hi))
    · exact hs
  · intro cmdData seen settings i hi
    rw [identifyRemovals]
    split
    · rename_i hrr
      rw [nlookup_dictUpdate_not_mem]
      exact hrare _ _ _ i hi
    · rfl



/-! ### A concrete run: a duplicated failed command next to a successful one -/

/-- Two failed "git statsu" lines, then three successful "git status" lines. -/
def exampleLines1 : List String :=
  [": 1:0;git statsu", ": 2:0;git statsu", ": 3:0;git status",
   ": 4:0;git status", ": 5:0;git status"]

def exampleEc1 : String → Option Int := fun ts =>
  if ts = "1" then some 1 else if ts = "2" then some 1 else
  if ts = "3" then some 0 else if ts = "4" then some 0 else
  if ts = "5" then some 0 else none

def exampleSettings1 : CleaningSettings := ⟨mkRat 4 5, 3, false⟩

set_option maxRecDepth 400000 in
/-- Claim C1, counterexample: line index 1 (the second "git statsu") is
marked "Duplicate" by Strategy 0, yet the reason mapping produced by
`_identify_removals` records the Strategy 1 reason for it — the first
applied strategy's reason does not win, because `dict.update` overwrites. -/
theorem C1_counterexample :
    1 ∈ findDuplicateIndices (parseHistoryFile exampleLines1 exampleEc1).cmdToLines
        (parseHistoryFile exampleLines1 exampleEc1).seenCommands ∧
    nlookup 1 (removalReasons exampleLines1 exampleEc1 exampleSettings1) =
      some (simReason "git status") ∧
    simReason "git status" ≠ dupReason := by
  refine ⟨by decide, by decide, by decide⟩

set_option maxRecDepth 400000 in
theorem C1_witness :
    nlookup 1 (identifyRemovals (cmdDataOf (parseHistoryFile exampleLines1 exampleEc1))
        (parseHistoryFile exampleLines1 exampleEc1).seenCommands exampleSettings1).2 =
      nlookup 1 (removeFailedSimilar (cmdDataOf (parseHistoryFile exampleLines1 exampleEc1))
        exampleSettings1.similarity_threshold).2 :=
  C1_reason_mapping.2.1 _ _ _ 1 (by decide)

/-! ### String-keyed association lists: lookup lemmas -/

theorem alookup_append {β : Type} (k : String) :
    ∀ m1 m2 : List (String × β),
      alookup k (m1 ++ m2) = (alookup k m1).orElse (fun _ => alookup k m2)
  | [], m2 => rfl
  | (k1, v1) :: t, m2 => by
    rw [List.cons_append, alookup, alookup]
    split
    · rfl
    · exact alookup_append k t m2

theorem alookup_isSome_iff {β : Type} {k : String} :
    ∀ {m : List (String × β)}, (alookup k m).isSome ↔ k ∈ m.map Prod.fst := by
  intro m
  induction m with
  | nil => simp [alookup]
  | cons kv t ih =>
    rw [alookup]
    split
    · rename_i h; simp [← h]
    · rename_i h
      simpa [Ne.symm h] using ih

theorem alookup_eq_none_iff {β : Type} {k : String} {m : List (String × β)} :
    alookup k m = none ↔ k ∉ m.map Prod.fst := by
  rw [← alookup_isSome_iff, Option.not_isSome_iff_eq_none]

theorem alookup_mem {β : Type} {k : String} {v : β} :
    ∀ {m : List (String × β)}, alookup k m = some v → (k, v) ∈ m
  | (k1, v1) :: t, h => by
    rw [alookup] at h
    split at h
    · rename_i he
      cases h
      exact he ▸ List.mem_cons_self _ _
    · exact List.mem_cons_of_mem _ (alookup_mem h)

theorem mem_alookup {β : Type} {k : String} {v : β} :
    ∀ {m : List (String × β)}, (m.map Prod.fst).Nodup → (k, v) ∈ m →
      alookup k m = some v
  | (k1, v1) :: t, hn, hm => by
    simp only [List.map_cons, List.nodup_cons] at hn
    rw [alookup]
    rcases List.mem_cons.mp hm with h | h
    · cases h
      rw [if_pos rfl]
    · have hk : k1 ≠ k := by
        rintro rfl
        exact hn.1 (List.mem_map.mpr ⟨(k1, v), h, rfl⟩)
      rw [if_neg hk]
      exact mem_alookup hn.2 h

/-! ### `appendIdx` -/

theorem alookup_appendIdx (k c : String) (i : Nat) :
    ∀ m, alookup c (appendIdx k i m) =
      if k = c then some ((alookup k m).getD [] ++ [i]) else alookup c m := by
  intro m
  induction m with
  | nil =>
    by_cases h : k = c
    · subst h
      simp [appendIdx, alookup]
    · simp [appendIdx, alookup, h]
  | cons kv t ih =>
    obtain ⟨k1, v1⟩ := kv
    by_cases h : k1 = k
    · subst h
      rw [appendIdx, if_pos rfl]
      have e1 : alookup k1 ((k1, v1) :: t) = some v1 := by rw [alookup, if_pos rfl]
      rw [e1]
      by_cases h2 : k1 = c
      · rw [alookup, if_pos h2, if_pos h2]
        rfl
      · rw [alookup, if_neg h2, if_neg h2, alookup, if_neg h2]
    · rw [appendIdx, if_neg h]
      have e1 : alookup k ((k1, v1) :: t) = alookup k t := by rw [alookup, if_neg h]
      rw [e1]
      have e2 : alookup c ((k1, v1) :: appendIdx k i t) =
          if k1 = c then some v1 else alookup c (appendIdx k i t) := by rw [alookup]
      rw [e2, ih]
      by_cases h2 : k1 = c
      · rw [if_pos h2, if_neg (fun hh : k = c => h (h2.trans hh.symm)), alookup, if_pos h2]
      · rw [if_neg h2]
        by_cases h3 : k = c
        · rw [if_pos h3, if_pos h3]
        · rw [if_neg h3, if_neg h3, alookup, if_neg h2]

theorem keys_appendIdx (k : String) (i : Nat) :
    ∀ m, (appendIdx k i m).map Prod.fst =
      if k ∈ m.map Prod.fst then m.map Prod.fst else m.map Prod.fst ++ [k]
  | [] => by simp [appendIdx]
  | (k1, v1) :: t => by
    rw [appendIdx]
    split
    · rename_i h; subst h; simp
    · rename_i h
      simp only [List.map_cons, keys_appendIdx k i t, List.mem_cons]
      split <;> split <;> simp_all [eq_comm]

theorem nodup_keys_appendIdx (k : String) (i : Nat) (m : List (String × List Nat))
    (h : (m.map Prod.fst).Nodup) : ((appendIdx k i m).map Prod.fst).Nodup := by
  rw [keys_appendIdx]
  split
  · exact h
  · rename_i hk
    simp [List.nodup_append, h, hk]

/-! ### `counterAdd` and `counterMerge` -/

theorem alookup_counterAdd (k c : String) (v : Nat) :
    ∀ m, alookup c (counterAdd k v m) =
      if k = c then some ((alookup k m).getD 0 + v) else alookup c m := by
  intro m
  induction m with
  | nil =>
    by_cases h : k = c
    · subst h
      simp [counterAdd, alookup]
    · simp [counterAdd, alookup, h]
  | cons kv t ih =>
    obtain ⟨k1, v1⟩ := kv
    by_cases h : k1 = k
    · subst h
      rw [counterAdd, if_pos rfl]
      have e1 : alookup k1 ((k1, v1) :: t) = some v1 := by rw [alookup, if_pos rfl]
      rw [e1]
      by_cases h2 : k1 = c
      · rw [alookup, if_pos h2, if_pos h2]
        rfl
      · rw [alookup, if_neg h2, if_neg h2, alookup, if_neg h2]
    · rw [counterAdd, if_neg h]
      have e1 : alookup k ((k1, v1) :: t) = alookup k t := by rw [alookup, if_neg h]
      rw [e1]
      have e2 : alookup c ((k1, v1) :: counterAdd k v t) =
          if k1 = c then some v1 else alookup c (counterAdd k v t) := by rw [alookup]
      rw [e2, ih]
      by_cases h2 : k1 = c
      · rw [if_pos h2, if_neg (fun hh : k = c => h (h2.trans hh.symm)), alookup, if_pos h2]
      · rw [if_neg h2]
        by_cases h3 : k = c
        · rw [if_pos h3, if_pos h3]
        · rw [if_neg h3, if_neg h3, alookup, if_neg h2]

theorem keys_counterAdd (k : String) (v : Nat) :
    ∀ m, (counterAdd k v m).map Prod.fst =
      if k ∈ m.map Prod.fst then m.map Prod.fst else m.map Prod.fst ++ [k]
  | [] => by simp [counterAdd]
  | (k1, v1) :: t => by
    rw [counterAdd]
    split
    · rename_i h; subst h; simp
    · rename_i h
      simp only [List.map_cons, keys_counterAdd k v t, List.mem_cons]
      split <;> split <;> simp_all [eq_comm]

theorem nodup_keys_counterAdd (k : String) (v : Nat) (m : List (String × Nat))
    (h : (m.map Prod.fst).Nodup) : ((counterAdd k v m).map Prod.fst).Nodup := by
  rw [keys_counterAdd]
  split
  · exact h
  · rename_i hk
    simp [List.nodup_append, h, hk]

theorem nodup_keys_counterMerge (src : List (String × Nat)) :
    ∀ m, ((m : List (String × Nat)).map Prod.fst).Nodup →
      ((counterMerge m src).map Prod.fst).Nodup := by
  induction src with
  | nil => intro m h; exact h
  | cons kv rest ih =>
    intro m h
    rw [counterMerge, List.foldl_cons, ← counterMerge]
    exact ih _ (nodup_keys_counterAdd kv.1 kv.2 m h)

theorem alookup_counterMerge (src : List (String × Nat))
    (hsrc : (src.map Prod.fst).Nodup) :
    ∀ (m : List (String × Nat)) (c : String),
      alookup c (counterMerge m src) =
        match alookup c src with
        | some v => some ((alookup c m).getD 0 + v)
        | none => alookup c m := by
  induction src with
  | nil => intro m c; simp [counterMerge, alookup]
  | cons kv rest ih =>
    intro m c
    simp only [List.map_cons, List.nodup_cons] at hsrc
    rw [counterMerge, List.foldl_cons, ← counterMerge]
    rw [ih hsrc.2, alookup]
    by_cases h : kv.1 = c
    · have hc : alookup c rest = none :=
        alookup_eq_none_iff.mpr (h ▸ hsrc.1)
      rw [if_pos h, hc, alookup_counterAdd, if_pos h, h]
    · rw [if_neg h]
      have hca : alookup c (counterAdd kv.1 kv.2 m) = alookup c m := by
        rw [alookup_counterAdd, if_neg h]
      cases alookup c rest with
      | none => simp [hca]
      | some v => simp [hca]



/-! ### Ghost functions: basic shapes -/

theorem indexedCmd_of_parse_none {l : String} (h : parseHistoryLine l = none) :
    indexedCmd l = none := by
  rw [indexedCmd, h]

theorem indexedCmd_of_blank {l : String} {ts cmd : String}
    (h : parseHistoryLine l = some (ts, cmd)) (hb : ¬(cmd ≠ "" ∧ ts ≠ "")) :
    indexedCmd l = none := by
  rw [indexedCmd, h]
  simp only [if_neg hb]

theorem indexedCmd_of_active {l : String} {ts cmd : String}
    (h : parseHistoryLine l = some (ts, cmd)) (hb : cmd ≠ "" ∧ ts ≠ "") :
    indexedCmd l = some (ts, cmd) := by
  rw [indexedCmd, h]
  simp only [if_pos hb]

theorem hitsCmd_of_none {l : String} (h : indexedCmd l = none) (c : String) :
    hitsCmd c l = false := by
  rw [hitsCmd, h]

theorem hitsCmd_of_some {l ts cmd : String} (h : indexedCmd l = some (ts, cmd))
    (c : String) : hitsCmd c l = decide (cmd = c) := by
  rw [hitsCmd, h]

theorem succHit_of_none {ec : String → Option Int} {l : String}
    (h : indexedCmd l = none) (c : String) : succHit ec c l = false := by
  rw [succHit, h]

theorem succHit_of_some {ec : String → Option Int} {l ts cmd : String}
    (h : indexedCmd l = some (ts, cmd)) (c : String) :
    succHit ec c l = (decide (cmd = c) && decide (ec ts = some 0)) := by
  rw [succHit, h]

theorem failHit_of_none {ec : String → Option Int} {l : String}
    (h : indexedCmd l = none) (c : String) : failHit ec c l = false := by
  rw [failHit, h]

theorem failHit_of_some {ec : String → Option Int} {l ts cmd : String}
    (h : indexedCmd l = some (ts, cmd)) (c : String) :
    failHit ec c l = (decide (cmd = c) && (ec ts).any (fun e => decide (e ≠ 0))) := by
  rw [failHit, h]

theorem succHit_imp_hits {ec : String → Option Int} {c l : String}
    (h : succHit ec c l = true) : hitsCmd c l = true := by
  cases hic : indexedCmd l with
  | none => rw [succHit_of_none hic] at h; exact absurd h (by simp)
  | some p =>
    obtain ⟨ts, cmd⟩ := p
    rw [succHit_of_some hic] at h
    rw [hitsCmd_of_some hic]
    exact (Bool.and_eq_true_iff.mp h).1

theorem failHit_imp_hits {ec : String → Option Int} {c l : String}
    (h : failHit ec c l = true) : hitsCmd c l = true := by
  cases hic : indexedCmd l with
  | none => rw [failHit_of_none hic] at h; exact absurd h (by simp)
  | some p =>
    obtain ⟨ts, cmd⟩ := p
    rw [failHit_of_some hic] at h
    rw [hitsCmd_of_some hic]
    exact (Bool.and_eq_true_iff.mp h).1

/-! ### `pIdx` lemmas -/

theorem pIdx_append (c : String) :
    ∀ (l1 l2 : List String) (idx : Nat),
      pIdx c idx (l1 ++ l2) = pIdx c idx l1 ++ pIdx c (idx + l1.length) l2
  | [], l2, idx => by simp [pIdx]
  | l :: t, l2, idx => by
    rw [List.cons_append, pIdx, pIdx, pIdx_append c t l2 (idx + 1)]
    simp [List.append_assoc, Nat.add_assoc, Nat.add_comm 1 t.length]

theorem pIdx_singleton (c : String) (idx : Nat) (l : String) :
    pIdx c idx [l] = if hitsCmd c l then [idx] else [] := by
  rw [pIdx]
  split <;> rfl

theorem mem_pIdx (c : String) :
    ∀ (ls : List String) (idx i : Nat),
      i ∈ pIdx c idx ls ↔
        ∃ k, ∃ h : k < ls.length, i = idx + k ∧ hitsCmd c (ls.get ⟨k, h⟩) = true := by
  intro ls
  induction ls with
  | nil => simp [pIdx]
  | cons l t ih =>
    intro idx i
    rw [pIdx, List.mem_append, ih]
    constructor
    · rintro (h | ⟨k, hk, rfl, hh⟩)
      · split at h
        · rename_i hh
          simp only [List.mem_singleton] at h
          exact ⟨0, by simp, by simpa using h, by simpa using hh⟩
        · simp at h
      · exact ⟨k + 1, by simpa using hk, by omega, by simpa using hh⟩
    · rintro ⟨k, hk, rfl, hh⟩
      cases k with
      | zero =>
        refine Or.inl ?_
        simp only [List.get] at hh
        rw [if_pos hh]
        simp
      | succ k2 =>
        refine Or.inr ⟨k2, by simpa using hk, by omega, by simpa using hh⟩

theorem pIdx_length (c : String) :
    ∀ (ls : List String) (idx : Nat),
      (pIdx c idx ls).length = ls.countP (hitsCmd c)
  | [], _ => rfl
  | l :: t, idx => by
    rw [pIdx, List.length_append, List.countP_cons, pIdx_length c t (idx + 1)]
    split <;> rename_i h <;> simp [h]
    · omega

theorem pIdx_head_ne_of_mem {c : String} {lines : List String} {j : Nat}
    (hj : j ∈ pIdx c 0 lines) (hne : (pIdx c 0 lines).head? ≠ some j) :
    ∃ f2, (pIdx c 0 lines).head? = some f2 ∧ j ≠ f2 := by
  cases hh : (pIdx c 0 lines).head? with
  | none =>
    rcases List.exists_cons_of_ne_nil (List.ne_nil_of_mem hj) with ⟨a, t, he⟩
    rw [he] at hh
    simp at hh
  | some f2 =>
    refine ⟨f2, rfl, ?_⟩
    rintro rfl
    exact hne hh



/-! ### The pipeline invariant -/

/-- The command-to-lines map lists, for each indexed command, exactly its
line indices in order. -/
def ListingRepr (lines : List String) (m : List (String × List Nat)) : Prop :=
  (m.map Prod.fst).Nodup ∧
  (∀ c v, alookup c m = some v → v = pIdx c 0 lines ∧ v ≠ []) ∧
  (∀ c, pIdx c 0 lines ≠ [] → (alookup c m).isSome)

/-- The first-seen map holds, for each indexed command, its first index. -/
def SeenRepr (lines : List String) (m : List (String × Nat)) : Prop :=
  (m.map Prod.fst).Nodup ∧
  (∀ c i, alookup c m = some i → (pIdx c 0 lines).head? = some i) ∧
  (∀ c, pIdx c 0 lines ≠ [] → (alookup c m).isSome)

/-- A counter holds, for each command, its number of hit lines (and only
commands with at least one hit). -/
def CountRepr (hit : String → String → Bool) (lines : List String)
    (m : List (String × Nat)) : Prop :=
  (m.map Prod.fst).Nodup ∧
  (∀ c n, alookup c m = some n → n = lines.countP (hit c) ∧ n ≠ 0) ∧
  (∀ c, lines.countP (hit c) ≠ 0 → (alookup c m).isSome)

/-- The full relation between the processed lines and the parser state. -/
def Represents (lines : List String) (ec : String → Option Int)
    (st : ParseState) : Prop :=
  st.allLines = lines ∧ ListingRepr lines st.cmdToLines ∧
    SeenRepr lines st.seenCommands ∧
    CountRepr (succHit ec) lines st.successfulCmds ∧
    CountRepr (failHit ec) lines st.failedCmds

theorem ListingRepr_skip {lines : List String} {m : List (String × List Nat)}
    {l : String} (h : ListingRepr lines m) (hh : ∀ c, hitsCmd c l = false) :
    ListingRepr (lines ++ [l]) m := by
  have hp : ∀ c, pIdx c 0 (lines ++ [l]) = pIdx c 0 lines := by
    intro c
    rw [pIdx_append, pIdx_singleton, hh c]
    simp
  exact ⟨h.1, fun c v hv => hp c ▸ h.2.1 c v hv, fun c hc => h.2.2 c (by rwa [hp c] at hc)⟩

theorem SeenRepr_skip {lines : List String} {m : List (String × Nat)}
    {l : String} (h : SeenRepr lines m) (hh : ∀ c, hitsCmd c l = false) :
    SeenRepr (lines ++ [l]) m := by
  have hp : ∀ c, pIdx c 0 (lines ++ [l]) = pIdx c 0 lines := by
    intro c
    rw [pIdx_append, pIdx_singleton, hh c]
    simp
  exact ⟨h.1, fun c i hi => hp c ▸ h.2.1 c i hi, fun c hc => h.2.2 c (by rwa [hp c] at hc)⟩

theorem CountRepr_skip {hit : String → String → Bool} {lines : List String}
    {m : List (String × Nat)} {l : String} (h : CountRepr hit lines m)
    (hh : ∀ c, hit c l = false) : CountRepr hit (lines ++ [l]) m := by
  have hp : ∀ c, (lines ++ [l]).countP (hit c) = lines.countP (hit c) := by
    intro c
    rw [List.countP_append, List.countP_cons, hh c]
    simp [List.countP_nil]
  exact ⟨h.1, fun c n hn => hp c ▸ h.2.1 c n hn, fun c hc => h.2.2 c (by rwa [hp c] at hc)⟩

theorem orElse_none_left {α : Type} (f : Unit → Option α) :
    (none : Option α).orElse f = f () := rfl

theorem orElse_some_left {α : Type} (a : α) (f : Unit → Option α) :
    (some a).orElse f = some a := rfl

theorem head?_append_of_some {α : Type} {l1 : List α} {a : α}
    (h : l1.head? = some a) (l2 : List α) : (l1 ++ l2).head? = some a := by
  cases l1 with
  | nil => simp at h
  | cons x t => simpa using h

theorem ListingRepr_add {lines : List String} {m : List (String × List Nat)}
    {l : String} {c0 : String} (h : ListingRepr lines m)
    (hh : ∀ c, hitsCmd c l = decide (c0 = c)) :
    ListingRepr (lines ++ [l]) (appendIdx c0 lines.length m) := by
  have hp : ∀ c, pIdx c 0 (lines ++ [l]) =
      pIdx c 0 lines ++ (if c0 = c then [lines.length] else []) := by
    intro c
    rw [pIdx_append, pIdx_singleton, hh c]
    by_cases hc : c0 = c
    · simp [hc]
    · simp [hc]
  refine ⟨nodup_keys_appendIdx c0 lines.length m h.1, ?_, ?_⟩
  · intro c v hv
    rw [alookup_appendIdx] at hv
    by_cases hc : c0 = c
    · rw [if_pos hc] at hv
      cases hv
      rw [hp c, if_pos hc]
      subst hc
      cases ha : alookup c0 m with
      | none =>
        have hempty : pIdx c0 0 lines = [] := by
          by_contra hne
          have hs := h.2.2 c0 hne
          rw [ha] at hs
          exact absurd hs (by simp)
        rw [hempty]
        simp
      | some v0 =>
        have hv0 := h.2.1 c0 v0 ha
        rw [← hv0.1]
        simp
    · rw [if_neg hc] at hv
      rw [hp c, if_neg hc]
      have hres := h.2.1 c v hv
      simpa using hres
  · intro c hc
    rw [alookup_appendIdx]
    by_cases h0 : c0 = c
    · rw [if_pos h0]
      rfl
    · rw [if_neg h0]
      rw [hp c, if_neg h0] at hc
      exact h.2.2 c (by simpa using hc)

theorem SeenRepr_step {lines : List String} {m : List (String × Nat)}
    {l : String} {c0 : String} (h : SeenRepr lines m)
    (hh : ∀ c, hitsCmd c l = decide (c0 = c)) :
    SeenRepr (lines ++ [l])
      (if (alookup c0 m).isSome then m else m ++ [(c0, lines.length)]) := by
  have hp : ∀ c, pIdx c 0 (lines ++ [l]) =
      pIdx c 0 lines ++ (if c0 = c then [lines.length] else []) := by
    intro c
    rw [pIdx_append, pIdx_singleton, hh c]
    by_cases hc : c0 = c
    · simp [hc]
    · simp [hc]
  split
  · rename_i hsome
    refine ⟨h.1, ?_, ?_⟩
    · intro c i hi
      rw [hp c]
      exact head?_append_of_some (h.2.1 c i hi) _
    · intro c hc
      rw [hp c] at hc
      by_cases h0 : c0 = c
      · subst h0
        exact hsome
      · rw [if_neg h0] at hc
        exact h.2.2 c (by simpa using hc)
  · rename_i hnone
    have hn0 : alookup c0 m = none := Option.not_isSome_iff_eq_none.mp hnone
    have hpc0 : pIdx c0 0 lines = [] := by
      by_contra hne
      have hs := h.2.2 c0 hne
      rw [hn0] at hs
      exact absurd hs (by simp)
    have hkeys : c0 ∉ m.map Prod.fst := alookup_eq_none_iff.mp hn0
    refine ⟨by simp [List.nodup_append, h.1, hkeys], ?_, ?_⟩
    · intro c i hi
      rw [alookup_append] at hi
      rw [hp c]
      cases ha : alookup c m with
      | some i0 =>
        rw [ha, orElse_some_left] at hi
        cases hi
        exact head?_append_of_some (h.2.1 c i ha) _
      | none =>
        rw [ha, orElse_none_left, alookup] at hi
        split at hi
        · rename_i hc0
          cases hi
          subst hc0
          rw [hpc0, if_pos rfl]
          rfl
        · rw [alookup] at hi
          cases hi
    · intro c hc
      rw [alookup_append]
      cases ha : alookup c m with
      | some i0 => rw [orElse_some_left]; rfl
      | none =>
        rw [hp c] at hc
        by_cases h0 : c0 = c
        · subst h0
          rw [orElse_none_left, alookup, if_pos rfl]
          rfl
        · rw [if_neg h0] at hc
          have hs := h.2.2 c (by simpa using hc)
          rw [ha] at hs
          exact absurd hs (by simp)

theorem CountRepr_add {hit : String → String → Bool} {lines : List String}
    {m : List (String × Nat)} {l : String} {c0 : String}
    (h : CountRepr hit lines m) (hh : ∀ c, hit c l = decide (c0 = c)) :
    CountRepr hit (lines ++ [l]) (counterAdd c0 1 m) := by
  have hp : ∀ c, (lines ++ [l]).countP (hit c) =
      lines.countP (hit c) + (if c0 = c then 1 else 0) := by
    intro c
    rw [List.countP_append, List.countP_cons, hh c]
    by_cases hc : c0 = c
    · simp [hc]
    · simp [hc]
  refine ⟨nodup_keys_counterAdd c0 1 m h.1, ?_, ?_⟩
  · intro c n hn
    rw [alookup_counterAdd] at hn
    by_cases hc : c0 = c
    · rw [if_pos hc] at hn
      cases hn
      rw [hp c, if_pos hc]
      subst hc
      cases ha : alookup c0 m with
      | none =>
        have hzero : lines.countP (hit c0) = 0 := by
          by_contra hne
          have hs := h.2.2 c0 hne
          rw [ha] at hs
          exact absurd hs (by simp)
        rw [hzero]
        simp
      | some n0 =>
        have hn0 := h.2.1 c0 n0 ha
        rw [← hn0.1]
        simp
    · rw [if_neg hc] at hn
      rw [hp c, if_neg hc]
      have hres := h.2.1 c n hn
      simpa using hres
  · intro c hc
    rw [alookup_counterAdd]
    by_cases h0 : c0 = c
    · rw [if_pos h0]
      rfl
    · rw [if_neg h0]
      rw [hp c, if_neg h0] at hc
      simp only [Nat.add_zero] at hc
      exact h.2.2 c hc



theorem Represents_skip {lines : List String} {ec : String → Option Int}
    {st : ParseState} {l : String} (h : Represents lines ec st)
    (hic : indexedCmd l = none) :
    Represents (lines ++ [l]) ec { st with allLines := st.allLines ++ [l] } := by
  refine ⟨by rw [h.1], ?_, ?_, ?_, ?_⟩
  · exact ListingRepr_skip h.2.1 (hitsCmd_of_none hic)
  · exact SeenRepr_skip h.2.2.1 (hitsCmd_of_none hic)
  · exact CountRepr_skip h.2.2.2.1 (succHit_of_none hic)
  · exact CountRepr_skip h.2.2.2.2 (failHit_of_none hic)

theorem processLine_none {ec : String → Option Int} {st : ParseState} {idx : Nat}
    {l : String} (hp : parseHistoryLine l = none) :
    processLine ec st idx l = { st with allLines := st.allLines ++ [l] } := by
  simp [processLine, hp]

theorem processLine_blank {ec : String → Option Int} {st : ParseState} {idx : Nat}
    {l ts cmd : String} (hp : parseHistoryLine l = some (ts, cmd))
    (hb : ¬(cmd ≠ "" ∧ ts ≠ "")) :
    processLine ec st idx l = { st with allLines := st.allLines ++ [l] } := by
  simp only [processLine, hp]
  rw [if_neg hb]

theorem processLine_noexit {ec : String → Option Int} {st : ParseState} {idx : Nat}
    {l ts cmd : String} (hp : parseHistoryLine l = some (ts, cmd))
    (hb : cmd ≠ "" ∧ ts ≠ "") (he : ec ts = none) :
    processLine ec st idx l =
      { allLines := st.allLines ++ [l]
        cmdToLines := appendIdx cmd idx st.cmdToLines
        seenCommands :=
          if (alookup cmd st.seenCommands).isSome then st.seenCommands
          else st.seenCommands ++ [(cmd, idx)]
        successfulCmds := st.successfulCmds
        failedCmds := st.failedCmds } := by
  simp only [processLine, hp]
  rw [if_pos hb]
  simp [he]

theorem processLine_succ {ec : String → Option Int} {st : ParseState} {idx : Nat}
    {l ts cmd : String} (hp : parseHistoryLine l = some (ts, cmd))
    (hb : cmd ≠ "" ∧ ts ≠ "") (he : ec ts = some 0) :
    processLine ec st idx l =
      { allLines := st.allLines ++ [l]
        cmdToLines := appendIdx cmd idx st.cmdToLines
        seenCommands :=
          if (alookup cmd st.seenCommands).isSome then st.seenCommands
          else st.seenCommands ++ [(cmd, idx)]
        successfulCmds := counterAdd cmd 1 st.successfulCmds
        failedCmds := st.failedCmds } := by
  simp only [processLine, hp]
  rw [if_pos hb]
  simp [he]

theorem processLine_fail {ec : String → Option Int} {st : ParseState} {idx : Nat}
    {l ts cmd : String} {e : Int} (hp : parseHistoryLine l = some (ts, cmd))
    (hb : cmd ≠ "" ∧ ts ≠ "") (he : ec ts = some e) (he0 : e ≠ 0) :
    processLine ec st idx l =
      { allLines := st.allLines ++ [l]
        cmdToLines := appendIdx cmd idx st.cmdToLines
        seenCommands :=
          if (alookup cmd st.seenCommands).isSome then st.seenCommands
          else st.seenCommands ++ [(cmd, idx)]
        successfulCmds := st.successfulCmds
        failedCmds := counterAdd cmd 1 st.failedCmds } := by
  simp only [processLine, hp]
  rw [if_pos hb]
  simp [he, he0]

theorem processLine_repr {lines : List String} {ec : String → Option Int}
    {st : ParseState} (l : String) (h : Represents lines ec st) :
    Represents (lines ++ [l]) ec (processLine ec st lines.length l) := by
  cases hp : parseHistoryLine l with
  | none =>
    rw [processLine_none hp]
    exact Represents_skip h (indexedCmd_of_parse_none hp)
  | some p =>
    obtain ⟨ts, cmd⟩ := p
    by_cases hb : cmd ≠ "" ∧ ts ≠ ""
    · have hic : indexedCmd l = some (ts, cmd) := indexedCmd_of_active hp hb
      have hhits : ∀ c, hitsCmd c l = decide (cmd = c) := hitsCmd_of_some hic
      have hctl := ListingRepr_add h.2.1 hhits
      have hseen := SeenRepr_step h.2.2.1 hhits
      cases he : ec ts with
      | none =>
        rw [processLine_noexit hp hb he]
        have hsh : ∀ c, succHit ec c l = false := by
          intro c
          rw [succHit_of_some hic, he]
          simp
        have hfh : ∀ c, failHit ec c l = false := by
          intro c
          rw [failHit_of_some hic, he]
          simp
        exact ⟨by rw [h.1], hctl, hseen, CountRepr_skip h.2.2.2.1 hsh,
          CountRepr_skip h.2.2.2.2 hfh⟩
      | some e =>
        by_cases he0 : e = 0
        · subst he0
          rw [processLine_succ hp hb he]
          have hsh : ∀ c, succHit ec c l = decide (cmd = c) := by
            intro c
            rw [succHit_of_some hic, he]
            simp
          have hfh : ∀ c, failHit ec c l = false := by
            intro c
            rw [failHit_of_some hic, he]
            simp [Option.any]
          exact ⟨by rw [h.1], hctl, hseen, CountRepr_add h.2.2.2.1 hsh,
            CountRepr_skip h.2.2.2.2 hfh⟩
        · rw [processLine_fail hp hb he he0]
          have hsh : ∀ c, succHit ec c l = false := by
            intro c
            rw [succHit_of_some hic, he]
            simp [he0]
          have hfh : ∀ c, failHit ec c l = decide (cmd = c) := by
            intro c
            rw [failHit_of_some hic, he]
            simp [Option.any, he0]
          exact ⟨by rw [h.1], hctl, hseen, CountRepr_skip h.2.2.2.1 hsh,
            CountRepr_add h.2.2.2.2 hfh⟩
    · rw [processLine_blank hp hb]
      exact Represents_skip h (indexedCmd_of_blank hp hb)

theorem parseLoop_repr (ec : String → Option Int) :
    ∀ (ls lines : List String) (st : ParseState), Represents lines ec st →
      Represents (lines ++ ls) ec (parseLoop ec st lines.length ls)
  | [], lines, st, h => by simpa using h
  | l :: ls, lines, st, h => by
    rw [parseLoop]
    have h2 := processLine_repr l h
    have h3 := parseLoop_repr ec ls (lines ++ [l]) _ h2
    simp only [List.length_append, List.length_singleton] at h3
    simpa [List.append_assoc] using h3

theorem parseHistoryFile_repr (lines : List String) (ec : String → Option Int) :
    Represents lines ec (parseHistoryFile lines ec) := by
  have hinit : Represents [] ec initState := by
    refine ⟨rfl, ⟨List.nodup_nil, ?_, ?_⟩, ⟨List.nodup_nil, ?_, ?_⟩,
      ⟨List.nodup_nil, ?_, ?_⟩, ⟨List.nodup_nil, ?_, ?_⟩⟩ <;>
      intro c <;> simp [alookup, pIdx, List.countP_nil]
  have h := parseLoop_repr ec lines [] initState hinit
  simpa [parseHistoryFile] using h



/-! ### Where removal indices come from -/

theorem s1step_prov {ctl : List (String × List Nat)} {succs : List (String × Nat)}
    {t : ℚ} {acc : Finset Nat × List (Nat × String)} {f : String × Nat} :
    ∀ x ∈ (s1step ctl succs t acc f).1, x ∈ acc.1 ∨ x ∈ lookupList ctl f.1 := by
  intro x hx
  rw [s1step] at hx
  cases hf : succs.find? (s1qual t f.1 f.2) with
  | none =>
    rw [hf] at hx
    exact Or.inl hx
  | some s =>
    obtain ⟨scmd, sc⟩ := s
    rw [hf] at hx
    simp only [Finset.mem_union, List.mem_toFinset] at hx
    exact hx

theorem s1_foldl_prov {ctl : List (String × List Nat)} {succs : List (String × Nat)}
    {t : ℚ} : ∀ (l : List (String × Nat)) (acc : Finset Nat × List (Nat × String)),
      ∀ x ∈ (l.foldl (s1step ctl succs t) acc).1,
        x ∈ acc.1 ∨ ∃ f ∈ l, x ∈ lookupList ctl f.1
  | [], _, x, hx => Or.inl hx
  | f :: rest, acc, x, hx => by
    rw [List.foldl_cons] at hx
    rcases s1_foldl_prov rest _ x hx with h1 | ⟨f2, hf2, h2⟩
    · rcases s1step_prov x h1 with h2 | h2
      · exact Or.inl h2
      · exact Or.inr ⟨f, List.mem_cons_self f rest, h2⟩
    · exact Or.inr ⟨f2, List.mem_cons_of_mem f hf2, h2⟩

theorem mem_lookupList_pIdx {lines : List String} {ec : String → Option Int}
    {st : ParseState} (h : Represents lines ec st) {c : String} {x : Nat}
    (hx : x ∈ lookupList st.cmdToLines c) : x ∈ pIdx c 0 lines := by
  rw [lookupList] at hx
  cases ha : alookup c st.cmdToLines with
  | none => rw [ha] at hx; simp at hx
  | some v =>
    rw [ha] at hx
    have hv := h.2.1.2.1 c v ha
    rw [← hv.1]
    exact hx

theorem removal_mem_pIdx {lines : List String} {ec : String → Option Int}
    {settings : CleaningSettings} {x : Nat} (hx : x ∈ removalSet lines ec settings) :
    ∃ c, x ∈ pIdx c 0 lines := by
  have h := parseHistoryFile_repr lines ec
  set st := parseHistoryFile lines ec with hst
  have hdup : ∀ y, y ∈ findDuplicateIndices st.cmdToLines st.seenCommands →
      ∃ c, y ∈ pIdx c 0 lines := by
    intro y hy
    rcases mem_findDuplicateIndices.mp hy with ⟨e, he, -, f2, -, hmem, -⟩
    refine ⟨e.1, ?_⟩
    have ha := mem_alookup h.2.1.1 (show (e.1, e.2) ∈ st.cmdToLines from he)
    have hv := h.2.1.2.1 e.1 e.2 ha
    rw [← hv.1]
    exact hmem
  have hfr : ∀ y, y ∈ (removeFailedSimilar (cmdDataOf st)
      settings.similarity_threshold).1 → ∃ c, y ∈ pIdx c 0 lines := by
    intro y hy
    rw [removeFailedSimilar] at hy
    rcases s1_foldl_prov _ _ y hy with h1 | ⟨f, -, h2⟩
    · simp at h1
    · exact ⟨f.1, mem_lookupList_pIdx h h2⟩
  rw [removalSet, removalResult, identifyRemovals] at hx
  simp only at hx
  split at hx
  · simp only [Finset.mem_union] at hx
    rcases hx with (hx | hx) | hx
    · exact hdup x hx
    · exact hfr x hx
    · rcases (rare_foldl_prov _ _ _ _ _ _).1 x hx with h1 | ⟨r, -, -, h2, -⟩
      · simp at h1
      · exact ⟨r.1, mem_lookupList_pIdx h h2⟩
  · simp only [Finset.mem_union] at hx
    rcases hx with hx | hx
    · exact hdup x hx
    · exact hfr x hx

theorem removal_lt_length {lines : List String} {ec : String → Option Int}
    {settings : CleaningSettings} {x : Nat} (hx : x ∈ removalSet lines ec settings) :
    x < lines.length := by
  rcases removal_mem_pIdx hx with ⟨c, hc⟩
  rcases (mem_pIdx c lines 0 x).mp hc with ⟨k, hk, rfl, -⟩
  omega

theorem dup_subset_removal {lines : List String} {ec : String → Option Int}
    {settings : CleaningSettings} {x : Nat}
    (hx : x ∈ findDuplicateIndices (parseHistoryFile lines ec).cmdToLines
      (parseHistoryFile lines ec).seenCommands) :
    x ∈ removalSet lines ec settings := by
  rw [removalSet, removalResult, identifyRemovals]
  simp only
  split
  · exact Finset.mem_union_left _ (Finset.mem_union_left _ hx)
  · exact Finset.mem_union_left _ hx

/-- In the first run, every indexed occurrence other than the head of its
command's index list is removed. -/
theorem nonfirst_removed {lines : List String} {ec : String → Option Int}
    {settings : CleaningSettings} {c : String} {j : Nat}
    (hj : j ∈ pIdx c 0 lines) (hne : (pIdx c 0 lines).head? ≠ some j) :
    j ∈ removalSet lines ec settings := by
  have h := parseHistoryFile_repr lines ec
  set st := parseHistoryFile lines ec with hst
  have hnn : pIdx c 0 lines ≠ [] := List.ne_nil_of_mem hj
  have hctl : (alookup c st.cmdToLines).isSome := h.2.1.2.2 c hnn
  rcases Option.isSome_iff_exists.mp hctl with ⟨v, hv⟩
  have hvv := h.2.1.2.1 c v hv
  have hseen : (alookup c st.seenCommands).isSome := h.2.2.1.2.2 c hnn
  rcases Option.isSome_iff_exists.mp hseen with ⟨f, hf⟩
  have hhead := h.2.2.1.2.1 c f hf
  have hjf : j ≠ f := by
    rintro rfl
    exact hne hhead
  have hlen : 1 < v.length := by
    rcases List.head?_eq_some_iff.mp hhead with ⟨t, ht⟩
    rw [hvv.1, ht]
    rw [ht] at hj
    rcases List.mem_cons.mp hj with h1 | h1
    · exact absurd h1 hjf
    · have := List.ne_nil_of_mem h1
      cases t with
      | nil => simp at this
      | cons a t2 => simp
  refine dup_subset_removal (mem_findDuplicateIndices.mpr ?_)
  refine ⟨(c, v), alookup_mem hv, hlen, f, ?_, ?_, hjf⟩
  · exact hf
  · rw [hvv.1]
    exact hj



/-! ### Kept lines -/

theorem two_positions_of_countP {α : Type} {p : α → Bool} :
    ∀ {l : List α}, 2 ≤ l.countP p →
      ∃ i j, ∃ hi : i < l.length, ∃ hj : j < l.length,
        i ≠ j ∧ p (l.get ⟨i, hi⟩) = true ∧ p (l.get ⟨j, hj⟩) = true := by
  intro l
  induction l with
  | nil => intro h; simp [List.countP_nil] at h
  | cons a t ih =>
    intro h
    rw [List.countP_cons] at h
    by_cases hpa : p a = true
    · simp only [hpa, if_true] at h
      rcases List.countP_pos_iff.mp (show 0 < t.countP p by omega) with ⟨b, hb, hpb⟩
      rcases List.mem_iff_get.mp hb with ⟨⟨n, hn⟩, hbn⟩
      refine ⟨0, n + 1, by simp, by simpa using Nat.succ_lt_succ hn, by omega, ?_, ?_⟩
      · exact hpa
      · have hpb2 : p (t.get ⟨n, hn⟩) = true := by rw [hbn]; exact hpb
        simpa using hpb2
    · have hfalse : p a = false := Bool.eq_false_iff.mpr hpa
      simp only [hfalse] at h
      simp only [Bool.false_eq_true, if_false] at h
      rcases ih (by omega) with ⟨i, j, hi, hj, hij, hpi, hpj⟩
      exact ⟨i + 1, j + 1, by simpa using Nat.succ_lt_succ hi,
        by simpa using Nat.succ_lt_succ hj, by omega, by simpa using hpi,
        by simpa using hpj⟩

theorem mem_keptLines_of_not_removed {lines : List String} {rs : Finset Nat}
    {i : Nat} (hi : i < lines.length) (h : i ∉ rs) :
    lines.get ⟨i, hi⟩ ∈ keptLines lines rs := by
  rw [keptLines]
  refine List.mem_map.mpr ⟨(i, lines.get ⟨i, hi⟩), ?_, rfl⟩
  refine List.mem_filter.mpr ⟨?_, by simpa using h⟩
  rw [List.mem_enum_iff_get?]
  simp [List.get?_eq_get hi]

theorem kept_countP_le_one (lines : List String) (ec : String → Option Int)
    (settings : CleaningSettings) (c : String) :
    (keptLines lines (removalSet lines ec settings)).countP (hitsCmd c) ≤ 1 := by
  set rs := removalSet lines ec settings with hrs
  by_contra hcon
  push_neg at hcon
  rw [keptLines, List.countP_map] at hcon
  set L := lines.enum.filter (fun p => decide (p.1 ∉ rs)) with hL
  rcases two_positions_of_countP hcon with ⟨m1, m2, hm1, hm2, hm12, hp1, hp2⟩
  have hLnodup : (L.map Prod.fst).Nodup := by
    have hsub : List.Sublist (L.map Prod.fst) (lines.enum.map Prod.fst) :=
      (List.filter_sublist _).map Prod.fst
    have hnodup0 : (lines.enum.map Prod.fst).Nodup := by
      rw [List.enum_map_fst]
      exact List.nodup_range _
    exact hnodup0.sublist hsub
  have hfst_ne : (L.get ⟨m1, hm1⟩).1 ≠ (L.get ⟨m2, hm2⟩).1 := by
    intro heq
    apply hm12
    have hm1b : m1 < (L.map Prod.fst).length := by simpa using hm1
    have hm2b : m2 < (L.map Prod.fst).length := by simpa using hm2
    have h1 : (L.map Prod.fst).get ⟨m1, hm1b⟩ = (L.map Prod.fst).get ⟨m2, hm2b⟩ := by
      simp only [List.get_map]
      exact heq
    have h2 := List.nodup_iff_injective_get.mp hLnodup h1
    simpa using congrArg Fin.val h2
  have hfacts : ∀ (m : Nat) (hm : m < L.length),
      hitsCmd c (L.get ⟨m, hm⟩).2 = true →
      (L.get ⟨m, hm⟩).1 ∈ pIdx c 0 lines ∧ (L.get ⟨m, hm⟩).1 ∉ rs := by
    intro m hm hhit
    have hmem : L.get ⟨m, hm⟩ ∈ L := List.get_mem L _ _
    have hflt := List.mem_filter.mp hmem
    have henum := hflt.1
    rw [List.mem_enum_iff_get?] at henum
    rcases List.get?_eq_some.mp henum with ⟨hlt, hget⟩
    constructor
    · rw [mem_pIdx]
      refine ⟨(L.get ⟨m, hm⟩).1, hlt, (Nat.zero_add _).symm, ?_⟩
      rw [hget]
      exact hhit
    · simpa using hflt.2
  have h1 := hfacts m1 hm1 hp1
  have h2 := hfacts m2 hm2 hp2
  have hhd : ∀ (j : Nat), j ∈ pIdx c 0 lines → j ∉ rs →
      (pIdx c 0 lines).head? = some j := by
    intro j hj hjrs
    by_contra hne
    exact hjrs (nonfirst_removed hj hne)
  have e1 := hhd _ h1.1 h1.2
  have e2 := hhd _ h2.1 h2.2
  rw [e1] at e2
  exact hfst_ne (by injection e2)



/-! ### Claim C2: idempotence -/

theorem s1qual_false_of_counts {t : ℚ} {f : String} {fc : Nat} {p : String × Nat}
    (hfc : 1 ≤ fc) (hp : p.2 ≤ 1) : s1qual t f fc p = false := by
  have hlt : ¬(fc < p.2) := by omega
  rw [s1qual, pfxRule, simRule]
  simp [hlt]

theorem s1step_id {ctl : List (String × List Nat)} {succs : List (String × Nat)}
    {t : ℚ} {acc : Finset Nat × List (Nat × String)} {f : String × Nat}
    (h : succs.find? (s1qual t f.1 f.2) = none) : s1step ctl succs t acc f = acc := by
  rw [s1step, h]

theorem removeFailedSimilar_empty {cmdData : CommandData} {t : ℚ}
    (hf : ∀ f ∈ cmdData.failed_cmds, 1 ≤ f.2)
    (hs : ∀ s ∈ cmdData.successful_cmds, s.2 ≤ 1) :
    removeFailedSimilar cmdData t = (∅, []) := by
  rw [removeFailedSimilar]
  have hgen : ∀ (l : List (String × Nat)), (∀ f ∈ l, 1 ≤ f.2) →
      l.foldl (s1step cmdData.cmd_to_lines cmdData.successful_cmds t) (∅, []) = (∅, []) := by
    intro l
    induction l with
    | nil => intro _; rfl
    | cons f rest ih =>
      intro hl
      rw [List.foldl_cons, s1step_id, ih (fun g hg => hl g (List.mem_cons_of_mem f hg))]
      rw [List.find?_eq_none]
      intro p hp
      rw [s1qual_false_of_counts (hl f (List.mem_cons_self f rest)) (hs p hp)]
      simp
  exact hgen _ hf

theorem rareStep_id {allCmds : List (String × Nat)} {ctl : List (String × List Nat)}
    {settings : CleaningSettings} {existing : Finset Nat}
    {acc : Finset Nat × List (Nat × String)} {r : String × Nat}
    (h : allCmds.find? (rareQual settings.similarity_threshold r.1 r.2) = none) :
    rareStep allCmds ctl settings existing acc r = acc := by
  rw [rareStep]
  split
  · rw [h]
  · rfl

theorem removeRareVariants_empty {cmdData : CommandData}
    {settings : CleaningSettings} {existing : Finset Nat}
    (hall : ∀ r ∈ allCmdsOf cmdData, 1 ≤ r.2 ∧ r.2 ≤ 2) :
    removeRareVariants cmdData settings existing = (∅, []) := by
  rw [removeRareVariants]
  have hq : ∀ (r p : String × Nat), r ∈ allCmdsOf cmdData → p ∈ allCmdsOf cmdData →
      rareQual settings.similarity_threshold r.1 r.2 p = false := by
    intro r p hr hp
    have h1 := hall r hr
    have h2 := hall p hp
    have hlt : ¬(r.2 * 3 < p.2) := by omega
    rw [rareQual]
    simp [hlt]
  have hgen : ∀ (l : List (String × Nat)), (∀ r ∈ l, r ∈ allCmdsOf cmdData) →
      l.foldl (rareStep (allCmdsOf cmdData) cmdData.cmd_to_lines settings existing)
        (∅, []) = (∅, []) := by
    intro l
    induction l with
    | nil => intro _; rfl
    | cons r rest ih =>
      intro hl
      rw [List.foldl_cons, rareStep_id, ih (fun g hg => hl g (List.mem_cons_of_mem r hg))]
      rw [List.find?_eq_none]
      intro p hp
      rw [hq r p (hl r (List.mem_cons_self r rest)) hp]
      simp
  exact hgen _ (fun r hr => hr)

/-- Claim C2: the cleaner is idempotent. Rebuilding the structures from
the kept lines of a first run and classifying again removes nothing. -/
theorem C2_idempotent (lines : List String) (ec : String → Option Int)
    (settings : CleaningSettings) :
    removalSet (keptLines lines (removalSet lines ec settings)) ec settings = ∅ := by
  set lines2 := keptLines lines (removalSet lines ec settings) with hl2
  have h2 := parseHistoryFile_repr lines2 ec
  set st2 := parseHistoryFile lines2 ec with hst2
  have hple : ∀ c, (pIdx c 0 lines2).length ≤ 1 := by
    intro c
    rw [pIdx_length]
    exact kept_countP_le_one lines ec settings c
  -- the duplicate strategy finds nothing
  have hdup : findDuplicateIndices st2.cmdToLines st2.seenCommands = ∅ := by
    rw [Finset.eq_empty_iff_forall_not_mem]
    intro x hx
    rcases mem_findDuplicateIndices.mp hx with ⟨e, he, hlen, -⟩
    have ha := mem_alookup h2.2.1.1 (show (e.1, e.2) ∈ st2.cmdToLines from he)
    have hv := h2.2.1.2.1 e.1 e.2 ha
    have := hple e.1
    rw [← hv.1] at this
    omega
  -- every rebuilt count is at most one
  have hsucc_le : ∀ s ∈ st2.successfulCmds, s.2 ≤ 1 := by
    intro s hs
    have ha := mem_alookup h2.2.2.2.1.1 (show (s.1, s.2) ∈ st2.successfulCmds from hs)
    have hv := h2.2.2.2.1.2.1 s.1 s.2 ha
    have hmono : lines2.countP (succHit ec s.1) ≤ lines2.countP (hitsCmd s.1) :=
      List.countP_mono_left (fun l _ hl => succHit_imp_hits hl)
    have hc := kept_countP_le_one lines ec settings s.1
    rw [← hl2] at hc
    omega
  have hfail_ge : ∀ f ∈ st2.failedCmds, 1 ≤ f.2 := by
    intro f hf
    have ha := mem_alookup h2.2.2.2.2.1 (show (f.1, f.2) ∈ st2.failedCmds from hf)
    have hv := h2.2.2.2.2.2.1 f.1 f.2 ha
    omega
  have hfail_le : ∀ f ∈ st2.failedCmds, f.2 ≤ 1 := by
    intro f hf
    have ha := mem_alookup h2.2.2.2.2.1 (show (f.1, f.2) ∈ st2.failedCmds from hf)
    have hv := h2.2.2.2.2.2.1 f.1 f.2 ha
    have hmono : lines2.countP (failHit ec f.1) ≤ lines2.countP (hitsCmd f.1) :=
      List.countP_mono_left (fun l _ hl => failHit_imp_hits hl)
    have hc := kept_countP_le_one lines ec settings f.1
    rw [← hl2] at hc
    omega
  have hsucc_ge : ∀ s ∈ st2.successfulCmds, 1 ≤ s.2 := by
    intro s hs
    have ha := mem_alookup h2.2.2.2.1.1 (show (s.1, s.2) ∈ st2.successfulCmds from hs)
    have hv := h2.2.2.2.1.2.1 s.1 s.2 ha
    omega
  have hfr : removeFailedSimilar (cmdDataOf st2) settings.similarity_threshold =
      (∅, []) := removeFailedSimilar_empty hfail_ge hsucc_le
  have hrr : ∀ existing, removeRareVariants (cmdDataOf st2) settings existing =
      (∅, []) := by
    intro existing
    refine removeRareVariants_empty ?_
    intro r hr
    have hnodup : ((allCmdsOf (cmdDataOf st2)).map Prod.fst).Nodup := by
      rw [allCmdsOf]
      exact nodup_keys_counterMerge _ _ (nodup_keys_counterMerge _ [] List.nodup_nil)
    have ha := mem_alookup hnodup (show (r.1, r.2) ∈ allCmdsOf (cmdDataOf st2) from hr)
    simp only [allCmdsOf, cmdDataOf] at ha
    rw [alookup_counterMerge _ h2.2.2.2.2.1,
      alookup_counterMerge _ h2.2.2.2.1.1] at ha
    have hnil : alookup r.1 ([] : List (String × Nat)) = none := rfl
    rw [hnil] at ha
    cases hsv : alookup r.1 st2.successfulCmds with
    | none =>
      cases hfv : alookup r.1 st2.failedCmds with
      | none =>
        simp only [hsv, hfv] at ha
        cases ha
      | some nf =>
        have hm := alookup_mem hfv
        have g1 : 1 ≤ nf := hfail_ge _ hm
        have g2 : nf ≤ 1 := hfail_le _ hm
        simp only [hsv, hfv, Option.getD_none, Option.some.injEq] at ha
        omega
    | some ns =>
      have hms := alookup_mem hsv
      have s1 : 1 ≤ ns := hsucc_ge _ hms
      have s2 : ns ≤ 1 := hsucc_le _ hms
      cases hfv : alookup r.1 st2.failedCmds with
      | none =>
        simp only [hsv, hfv, Option.getD_none, Option.some.injEq] at ha
        omega
      | some nf =>
        have hmf := alookup_mem hfv
        have g1 : 1 ≤ nf := hfail_ge _ hmf
        have g2 : nf ≤ 1 := hfail_le _ hmf
        simp only [hsv, hfv, Option.getD_none, Option.getD_some, Option.some.injEq] at ha
        omega
  have hview : removalSet lines2 ec settings =
      (identifyRemovals (cmdDataOf st2) st2.seenCommands settings).1 := rfl
  rw [hview, identifyRemovals]
  have hdup2 : findDuplicateIndices (cmdDataOf st2).cmd_to_lines st2.seenCommands = ∅ :=
    hdup
  simp only
  split
  · rw [hdup2, hfr, hrr]
    simp
  · rw [hdup2, hfr]
    simp



/-! ### Claim C8: the writer -/

theorem join_cons (a : String) (l : List String) :
    String.join (a :: l) = a ++ String.join l := by
  have hf : ∀ (l2 : List String) (x y : String),
      l2.foldl (· ++ ·) (x ++ y) = x ++ l2.foldl (· ++ ·) y := by
    intro l2
    induction l2 with
    | nil => intro x y; rfl
    | cons z t ih =>
      intro x y
      rw [List.foldl_cons, List.foldl_cons, String.append_assoc, ih]
  rw [String.join, String.join, List.foldl_cons]
  have h2 := hf l a ""
  simpa using h2

theorem writeCleaned_foldl {rs : Finset Nat} :
    ∀ (L : List (Nat × String)) (acc : String),
      L.foldl (fun acc p => if p.1 ∈ rs then acc else acc ++ p.2 ++ "\n") acc =
        acc ++ String.join ((L.filter (fun p => decide (p.1 ∉ rs))).map
          (fun p => p.2 ++ "\n"))
  | [], acc => by simp [String.join]
  | p :: L, acc => by
    rw [List.foldl_cons]
    by_cases h : p.1 ∈ rs
    · rw [if_pos h, writeCleaned_foldl L acc]
      have hq : decide (p.1 ∉ rs) = false := by simp [h]
      rw [List.filter_cons, hq]
      simp
    · rw [if_neg h, writeCleaned_foldl L (acc ++ p.2 ++ "\n")]
      have hq : decide (p.1 ∉ rs) = true := by simp [h]
      rw [List.filter_cons, hq]
      simp only [if_true, List.map_cons, join_cons]
      simp [String.append_assoc]

/-- Claim C8: every removed index is a valid 0-based index into the line
sequence; the kept lines are a sublist of the original lines (original
relative order, kept verbatim); and the rewrite writes exactly the kept
lines in order, each terminated by a newline. -/
theorem C8_writer (lines : List String) (ec : String → Option Int)
    (settings : CleaningSettings) :
    (∀ i ∈ removalSet lines ec settings, i < lines.length) ∧
    List.Sublist (keptLines lines (removalSet lines ec settings)) lines ∧
    writeCleaned lines (removalSet lines ec settings) =
      String.join ((keptLines lines (removalSet lines ec settings)).map
        (fun s => s ++ "\n")) := by
  refine ⟨fun i hi => removal_lt_length hi, ?_, ?_⟩
  · have hsub : List.Sublist
        ((lines.enum.filter (fun p => decide (p.1 ∉ removalSet lines ec settings))).map
          Prod.snd) (lines.enum.map Prod.snd) :=
      (List.filter_sublist _).map Prod.snd
    rw [List.enum_map_snd] at hsub
    exact hsub
  · have hemp : ∀ s : String, "" ++ s = s := fun s => by simp
    rw [writeCleaned, writeCleaned_foldl, hemp, keptLines, List.map_map]
    rfl

/-! ### Claim C9: lines that are not records -/

theorem not_removed_of_unindexed {lines : List String} (ec : String → Option Int)
    (settings : CleaningSettings) {i : Nat} (hi : i < lines.length)
    (hic : indexedCmd (lines.get ⟨i, hi⟩) = none) :
    (∀ c, i ∉ pIdx c 0 lines) ∧ i ∉ removalSet lines ec settings := by
  have hnot : ∀ c, i ∉ pIdx c 0 lines := by
    intro c hmem
    rcases (mem_pIdx c lines 0 i).mp hmem with ⟨k, hk, hik, hhit⟩
    have hki : k = i := by omega
    subst hki
    rw [hitsCmd_of_none hic] at hhit
    cases hhit
  refine ⟨hnot, fun hr => ?_⟩
  rcases removal_mem_pIdx hr with ⟨c, hc⟩
  exact hnot c hc

/-- Claim C9: a line that does not match the record pattern leaves the
whole indexing state unchanged apart from being recorded as raw text
(first conjunct), is indexed under no command, is never placed in the
removal set, and is retained verbatim among the kept lines (second
conjunct). -/
theorem C9_nonrecord :
    (∀ (ec : String → Option Int) (st : ParseState) (idx : Nat) (l : String),
      parseHistoryLine l = none →
      processLine ec st idx l = { st with allLines := st.allLines ++ [l] }) ∧
    (∀ (lines : List String) (ec : String → Option Int)
      (settings : CleaningSettings) (i : Nat) (hi : i < lines.length),
      parseHistoryLine (lines.get ⟨i, hi⟩) = none →
      (∀ c v, alookup c (parseHistoryFile lines ec).cmdToLines = some v → i ∉ v) ∧
      i ∉ removalSet lines ec settings ∧
      lines.get ⟨i, hi⟩ ∈ keptLines lines (removalSet lines ec settings)) := by
  constructor
  · intro ec st idx l hp
    exact processLine_none hp
  · intro lines ec settings i hi hp
    have hic : indexedCmd (lines.get ⟨i, hi⟩) = none := indexedCmd_of_parse_none hp
    have h := not_removed_of_unindexed ec settings hi hic
    refine ⟨?_, h.2, mem_keptLines_of_not_removed hi h.2⟩
    intro c v hv hiv
    have hrepr := parseHistoryFile_repr lines ec
    have hvv := hrepr.2.1.2.1 c v hv
    rw [hvv.1] at hiv
    exact h.1 c hiv

theorem C9_witness :
    (0 : Nat) ∉ removalSet ["not a history record"] (fun _ => none)
      ⟨mkRat 4 5, 3, true⟩ :=
  (C9_nonrecord.2 ["not a history record"] (fun _ => none) ⟨mkRat 4 5, 3, true⟩ 0
    (by decide) (by decide)).2.1



/-! ### Claim C10: whitespace-only command segments -/

theorem takeWhile_all_append {p : Char → Bool} :
    ∀ {l : List Char} {a : Char} {r : List Char},
      (∀ c ∈ l, p c = true) → p a = false →
      (l ++ a :: r).takeWhile p = l ∧ (l ++ a :: r).dropWhile p = a :: r := by
  intro l
  induction l with
  | nil =>
    intro a r _ hpa
    rw [List.nil_append]
    constructor
    · rw [List.takeWhile_cons, hpa]
      rfl
    · rw [List.dropWhile_cons, hpa]
      rfl
  | cons x t ih =>
    intro a r hall hpa
    have hx : p x = true := hall x (List.mem_cons_self x t)
    have ht := ih (a := a) (r := r) (fun c hc => hall c (List.mem_cons_of_mem x hc)) hpa
    rw [List.cons_append]
    constructor
    · rw [List.takeWhile_cons, hx, ht.1]
      simp
    · rw [List.dropWhile_cons, hx, ht.2]
      simp

theorem dropWhile_all {p : Char → Bool} :
    ∀ {l : List Char}, (∀ c ∈ l, p c = true) → l.dropWhile p = []
  | [], _ => rfl
  | x :: t, h => by
    rw [List.dropWhile_cons, h x (List.mem_cons_self x t)]
    exact dropWhile_all (fun c hc => h c (List.mem_cons_of_mem x hc))

/-- Claim C10: a line that matches the record pattern but whose command
segment is whitespace only parses to the timestamp with an empty command;
the indexer therefore skips the line entirely (the state changes only by
recording the raw line), and no strategy can ever remove it. -/
theorem C10_whitespace_command (d1 d2 w : List Char) (line : String)
    (hd1 : d1 ≠ []) (hd1d : ∀ c ∈ d1, c.isDigit = true)
    (hd2 : d2 ≠ []) (hd2d : ∀ c ∈ d2, c.isDigit = true)
    (hw : w ≠ []) (hws : ∀ c ∈ w, pySpace c = true ∧ c ≠ '\n')
    (hline : line.data = ':' :: ' ' :: (d1 ++ ':' :: (d2 ++ ';' :: w))) :
    parseHistoryLine line = some (d1.asString, "") ∧
    (∀ (ec : String → Option Int) (st : ParseState) (idx : Nat),
      processLine ec st idx line = { st with allLines := st.allLines ++ [line] }) ∧
    (∀ (lines : List String) (ec : String → Option Int)
      (settings : CleaningSettings) (i : Nat) (hi : i < lines.length),
      lines.get ⟨i, hi⟩ = line → i ∉ removalSet lines ec settings) := by
  have hcolon : (':' : Char).isDigit = false := by decide
  have hsemi : (';' : Char).isDigit = false := by decide
  have h1 := takeWhile_all_append (p := Char.isDigit) (a := ':')
    (r := d2 ++ ';' :: w) hd1d hcolon
  have h2 := takeWhile_all_append (p := Char.isDigit) (a := ';') (r := w) hd2d hsemi
  have hbody : w.takeWhile (fun c => decide (c ≠ '\n')) = w := by
    rw [List.takeWhile_eq_self_iff]
    intro c hc
    simp [(hws c hc).2]
  have hparse : parseHistoryLine line = some (d1.asString, "") := by
    rw [parseHistoryLine, hline, parseChars]
    simp only [h1.1, h1.2, h2.1, h2.2]
    rw [if_neg (by simpa using hd1), if_neg (by simpa using hd2), hbody,
      if_neg (by simpa using hw)]
    have hstrip : pyStrip w = [] := by
      rw [pyStrip, dropWhile_all (fun c hc => (hws c hc).1)]
      rfl
    rw [hstrip]
    rfl
  refine ⟨hparse, ?_, ?_⟩
  · intro ec st idx
    exact processLine_blank hparse (by simp)
  · intro lines ec settings i hi hl
    have hic : indexedCmd (lines.get ⟨i, hi⟩) = none := by
      rw [hl]
      exact indexedCmd_of_blank hparse (by simp)
    exact (not_removed_of_unindexed ec settings hi hic).2

theorem C10_witness :
    parseHistoryLine ": 1:0; " = some ("1", "") :=
  (C10_whitespace_command [Char.ofNat 49] [Char.ofNat 48] [' '] ": 1:0; "
    (by decide) (by decide) (by decide) (by decide) (by decide) (by decide)
    (by decide)).1

end CleanHistory
